import Mathlib

/-!
Verification of the selection / naming / relocation engine of the
azurestorage-blueprints repository (move_file.py, upload_file.py,
download_file.py, delete_file.py).

The Python path helpers are embedded at the character-list level so that
`os.path.normpath`, `str.strip('/')`, `os.path.basename` and the
`re.sub(r'\.', repl, s, 1)` call are modelled faithfully.  The storage
side effects of the move/delete flows are modelled as traces of storage
operations together with an environment that decides the outcome of each
network call.
-/

/-! ### Character-level helpers for the Python standard library functions -/

/-- Model of Python `str.split('/')` on a list of characters: split at every
occurrence of `'/'`, keeping empty pieces (as Python does). -/
def consHead (c : Char) : List (List Char) → List (List Char)
  | [] => [[c]]
  | h :: t => (c :: h) :: t

/-- Model of Python `path.split('/')`. -/
def pySplit : List Char → List (List Char)
  | [] => [[]]
  | c :: rest => if c = '/' then [] :: pySplit rest else consHead c (pySplit rest)

/-- Model of Python `'/'.join(comps)`. -/
def joinSlash : List (List Char) → List Char
  | [] => []
  | [x] => x
  | x :: y :: t => x ++ '/' :: joinSlash (y :: t)

/-- Model of Python `str.strip('/')`: drop every leading and trailing `'/'`. -/
def pyStripSlash (s : List Char) : List Char :=
  ((s.dropWhile (fun c => c = '/')).reverse.dropWhile (fun c => c = '/')).reverse

/-- The `".."` path component. -/
def dd : List Char := ['.', '.']

/-- Number of initial slashes kept by `posixpath.normpath`: one or two initial
slashes are preserved, three or more collapse to one. -/
def initSlashes (p : List Char) : Nat :=
  if p.head? = some '/' then
    if (p.drop 1).head? = some '/' then
      if (p.drop 2).head? = some '/' then 1 else 2
    else 1
  else 0

/-- One step of the component-normalisation loop of `posixpath.normpath`.
The accumulator is kept in reversed order (its head is Python's
`new_comps[-1]`). -/
def normStep (slashes : Nat) (acc : List (List Char)) (comp : List Char) :
    List (List Char) :=
  if comp = [] ∨ comp = ['.'] then acc
  else if comp = dd then
    if (slashes = 0 ∧ acc = []) ∨ acc.head? = some dd then comp :: acc
    else if acc = [] then acc
    else acc.tail
  else comp :: acc

/-- Final assembly of `posixpath.normpath`: prepend the preserved initial
slashes, join the components, and fall back to `"."` when empty. -/
def joinOut (slashes : Nat) (nc : List (List Char)) : List Char :=
  if List.replicate slashes '/' ++ joinSlash nc = [] then ['.']
  else List.replicate slashes '/' ++ joinSlash nc

/-- Model of Python `posixpath.normpath` on a list of characters. -/
def normpathChars (p : List Char) : List Char :=
  if p = [] then ['.']
  else joinOut (initSlashes p) (((pySplit p).foldl (normStep (initSlashes p)) []).reverse)

/-- Model of Python `os.path.normpath` (POSIX flavour) on strings. -/
def normpath (s : String) : String :=
  String.mk (normpathChars s.data)

/-- Model of Python `os.path.basename` (POSIX): the suffix after the last
`'/'`. -/
def basenameChars (p : List Char) : List Char :=
  (p.reverse.takeWhile (fun c => c ≠ '/')).reverse

/-- Model of Python `re.sub(r'\.', repl, s, 1)`: replace the first `'.'`
character by `repl` (the replacement used in the source contains no
backslash escapes, so it is literal text). -/
def subFirstDot (repl : List Char) : List Char → List Char
  | [] => []
  | c :: rest => if c = '.' then repl ++ rest else c :: subFirstDot repl rest

/-- A well-formed path component: nonempty, not the `"."` component, and
slash-free. -/
def goodComp (c : List Char) : Prop := c ≠ [] ∧ c ≠ ['.'] ∧ '/' ∉ c

/-- Invariant of the (reversed) accumulator of the `normpath` component
loop: all components well formed, the `".."` components form a suffix of the
reversed accumulator, and no `".."` at all for absolute paths. -/
def AccInv (slashes : Nat) (acc : List (List Char)) : Prop :=
  (∀ c ∈ acc, goodComp c) ∧
  (∃ m k, acc = m ++ List.replicate k dd ∧ dd ∉ m) ∧
  (slashes ≠ 0 → dd ∉ acc)

/-- Shape of the component list produced by `normpath` (in forward order):
all components well formed, `".."` components only as a leading run, and
none at all for absolute paths. -/
def NormalOut (slashes : Nat) (l : List (List Char)) : Prop :=
  (∀ c ∈ l, goodComp c) ∧
  (∃ k m, l = List.replicate k dd ++ m ∧ dd ∉ m) ∧
  (slashes ≠ 0 → dd ∉ l)

/-- No two adjacent `'/'` characters. -/
def noDoubleSlash : List Char → Bool
  | [] => true
  | [_] => true
  | a :: b :: rest => if a = '/' ∧ b = '/' then false else noDoubleSlash (b :: rest)

/-- The ten decimal digit characters. -/
def DIGITS : List Char := ['0', '1', '2', '3', '4', '5', '6', '7', '8', '9']

/-- Reference form of the decimal digit list of a natural number (most
significant digit first), used to reason about `Nat.repr`. -/
def tdAux (n : Nat) : List Char :=
  if _h : n < 10 then [Nat.digitChar n]
  else tdAux (n / 10) ++ [Nat.digitChar (n % 10)]
decreasing_by exact Nat.div_lt_self (by omega) (by omega)

/-- Numeric value of a digit character. -/
def digitVal (c : Char) : Nat := c.toNat - '0'.toNat

/-- Numeric value of a digit string (most significant digit first). -/
def digitsVal (l : List Char) : Nat := l.foldl (fun a c => 10 * a + digitVal c) 0

/-! ### Embeddings of the shared naming helpers
(`upload_file.py` lines 61-144, duplicated in `download_file.py`) -/

/-- Embedding of `extract_file_name_from_source_full_path`
(upload_file.py lines 61-67): `os.path.basename(source_full_path)`. -/
def extract_file_name_from_source_full_path (source_full_path : String) : String :=
  String.mk (basenameChars source_full_path.data)

/-- Embedding of `enumerate_destination_file_name` (upload_file.py lines
70-81): if the name contains a `'.'`, substitute the first `'.'` by
`_<file_number>.`; otherwise append `_<file_number>`. -/
def enumerate_destination_file_name (destination_file_name : String)
    (file_number : Nat) : String :=
  if destination_file_name.data.contains '.' then
    String.mk (subFirstDot ('_' :: (Nat.repr file_number).data ++ ['.'])
      destination_file_name.data)
  else destination_file_name ++ "_" ++ Nat.repr file_number

/-- Embedding of `determine_destination_file_name` (upload_file.py lines
84-104).  `none` models Python `None`; the branches mirror Python truthiness
(`""` and `0` are falsy). -/
def determine_destination_file_name (source_full_path : String)
    (destination_file_name : Option String) (file_number : Option Nat) : String :=
  match destination_file_name with
  | none => extract_file_name_from_source_full_path source_full_path
  | some d =>
    if d = "" then extract_file_name_from_source_full_path source_full_path
    else
      match file_number with
      | none => d
      | some k => if k = 0 then d else enumerate_destination_file_name d k

/-- Embedding of `clean_folder_name` (upload_file.py lines 107-115):
`strip('/')` followed by `normpath` when non-empty. -/
def clean_folder_name (folder_name : String) : String :=
  let stripped := String.mk (pyStripSlash folder_name.data)
  if stripped = "" then stripped else normpath stripped

/-- Embedding of `combine_folder_and_file_name` (upload_file.py lines
118-127): `normpath` applied (twice) to
`f'{folder_name}{"/" if folder_name else ""}{file_name}'`. -/
def combine_folder_and_file_name (folder_name file_name : String) : String :=
  normpath (normpath (folder_name ++ (if folder_name = "" then "" else "/") ++ file_name))

/-- Embedding of `determine_destination_full_path` (upload_file.py lines
130-144). -/
def determine_destination_full_path (destination_folder_name : String)
    (destination_file_name : Option String) (source_full_path : String)
    (file_number : Option Nat) : String :=
  combine_folder_and_file_name destination_folder_name
    (determine_destination_file_name source_full_path destination_file_name file_number)

/-- Destination path computed for one matched blob by the regex branch of
`move_file.py main` (lines 141-148): the user-supplied destination file name
is replaced by `None`, so the name is first extracted from the blob's
basename and then fed back with the 1-based loop index. -/
def moveDestinationFor (destination_folder_name key_name : String) (index : Nat) : String :=
  let dest_file_name := determine_destination_file_name key_name none none
  determine_destination_full_path destination_folder_name (some dest_file_name)
    key_name (some index)

/-- Destination path computed for one matched file by the regex branch of
`upload_file.py main` (lines 215-220) and `download_file.py main` (lines
203-207): the user-supplied destination file name is passed through together
with the 1-based index. -/
def upload_regex_destination (destination_folder_name : String)
    (destination_file_name : Option String) (key_name : String) (index : Nat) : String :=
  determine_destination_full_path destination_folder_name destination_file_name
    key_name (some index)

/-! ### Embedding of the matcher and the storage flows -/

/-- A listed Azure blob; only its `name` attribute is consulted by the
matcher. -/
structure Blob where
  name : String
deriving DecidableEq

/-- Embedding of `find_matching_files` (move_file.py lines 76-85, identical
in download_file.py and delete_file.py).  The predicate `p` abstracts
`re.search(file_name_re, blob.name)` being a match (unanchored search). -/
def find_matching_files (p : String → Bool) : List Blob → List String
  | [] => []
  | blob :: rest =>
    if p blob.name then blob.name :: find_matching_files p rest
    else find_matching_files p rest

/-- Storage calls that mutate or query blobs, recorded as a trace. -/
inductive StorageOp where
  | startCopy (src dst : String)
  | getCopyStatus (dst : String)
  | abortCopy (dst : String)
  | deleteBlob (path : String)
deriving DecidableEq

/-- Environment deciding the outcome of each network call: whether the
storage client can be constructed, the copy status read on a destination
after `start_copy_from_url(src, dst)`, whether a `delete_blob` call
succeeds, and the container listing. -/
structure AzureEnv where
  clientOk : Bool
  copyStatus : String → String → String
  deleteOk : String → Bool
  listing : List Blob

/-- Modelled from the spec: the repository's `exit_codes` module is imported
by move_file.py but is not part of the given sources; spec §6 requires a
distinct nonzero code for `NO_MATCHES_FOUND`. -/
def EXIT_CODE_NO_MATCHES_FOUND : Nat := 200

/-- Modelled from the spec: distinct nonzero code for `INCORRECT_CREDENTIALS`
(spec §6, `exit_codes` module not in the given sources). -/
def EXIT_CODE_INCORRECT_CREDENTIALS : Nat := 201

/-- Modelled from the spec: distinct nonzero code for `MOVE_FAILED`
(spec §6, `exit_codes` module not in the given sources; the source calls it
`EXIT_CODE_AZURE_MOVE_ERROR`). -/
def EXIT_CODE_AZURE_MOVE_ERROR : Nat := 202

/-- Exit status of a Python process killed by an uncaught exception. -/
def EXIT_CODE_PYTHON_EXCEPTION : Nat := 1

/-- Embedding of `azure_move_blob` (move_file.py lines 88-116): client
construction guarded by a bare `except` that exits with
`EXIT_CODE_INCORRECT_CREDENTIALS`; then `start_copy_from_url`, a copy-status
read on the destination, an `abort_copy` plus
`sys.exit(EXIT_CODE_AZURE_MOVE_ERROR)` when the status is not `"success"`,
and otherwise `delete_blob` on the source (whose failure would raise an
uncaught exception).  The result is the trace of storage calls together with
`none` for normal completion or `some code` for `sys.exit(code)`. -/
def azure_move_blob (env : AzureEnv) (source_full_path destination_full_path : String) :
    List StorageOp × Option Nat :=
  if env.clientOk then
    let ops := [StorageOp.startCopy source_full_path destination_full_path,
                StorageOp.getCopyStatus destination_full_path]
    if env.copyStatus source_full_path destination_full_path ≠ "success" then
      (ops ++ [StorageOp.abortCopy destination_full_path], some EXIT_CODE_AZURE_MOVE_ERROR)
    else if env.deleteOk source_full_path then
      (ops ++ [StorageOp.deleteBlob source_full_path], none)
    else
      (ops ++ [StorageOp.deleteBlob source_full_path], some EXIT_CODE_PYTHON_EXCEPTION)
  else ([], some EXIT_CODE_INCORRECT_CREDENTIALS)

/-- Modelled from the spec (§6 storage capability interface, the Azure SDK
itself not being part of the sources): effect of one storage call on the set
of stored object names.  A started copy creates the (possibly partial)
destination object, `abort_copy` removes the partial destination, and a
successful `delete_blob` removes the named object. -/
def applyOp (env : AzureEnv) (store : List String) : StorageOp → List String
  | StorageOp.startCopy _ dst => if dst ∈ store then store else store ++ [dst]
  | StorageOp.getCopyStatus _ => store
  | StorageOp.abortCopy dst => store.filter (fun b => b ≠ dst)
  | StorageOp.deleteBlob p => if env.deleteOk p then store.filter (fun b => b ≠ p) else store

/-- Effect of a trace of storage calls on the stored object names. -/
def applyOps (env : AzureEnv) (store : List String) (ops : List StorageOp) : List String :=
  ops.foldl (applyOp env) store

/-- Embedding of the per-object loop of the regex branch of `move_file.py
main` (lines 141-156): 1-based enumeration, destination computed by
`moveDestinationFor`, and `azure_move_blob` whose `sys.exit` terminates the
whole loop. -/
def move_loop (env : AzureEnv) (destination_folder_name : String) :
    Nat → List String → List StorageOp × Option Nat
  | _, [] => ([], none)
  | index, key_name :: rest =>
    let dest := moveDestinationFor destination_folder_name key_name index
    let r := azure_move_blob env key_name dest
    match r.2 with
    | some code => (r.1, some code)
    | none =>
      let r2 := move_loop env destination_folder_name (index + 1) rest
      (r.1 ++ r2.1, r2.2)

/-- Embedding of the regex branch of `move_file.py main` (lines 133-156):
list, match, exit with `EXIT_CODE_NO_MATCHES_FOUND` on zero matches, else
run the move loop.  The destination folder is cleaned as in line 129.  The
`destination_file_name` argument mirrors `args.destination_file_name`,
which the regex branch reads but never uses. -/
def move_main_regex (env : AzureEnv) (p : String → Bool)
    (destination_folder_name : String) (destination_file_name : Option String) :
    List StorageOp × Option Nat :=
  let destFolder := clean_folder_name destination_folder_name
  let matching := find_matching_files p env.listing
  if matching.length = 0 then ([], some EXIT_CODE_NO_MATCHES_FOUND)
  else
    let _ := destination_file_name
    move_loop env destFolder 1 matching

/-- Embedding of the per-object loop of the regex branch of `delete_file.py
main` (lines 117-123): each iteration constructs a client and issues one
`delete_blob`; any raised exception is uncaught and kills the process with
status 1. -/
def delete_loop (env : AzureEnv) : List String → List StorageOp × Option Nat
  | [] => ([], none)
  | file_name :: rest =>
    if env.clientOk then
      if env.deleteOk file_name then
        let r := delete_loop env rest
        (StorageOp.deleteBlob file_name :: r.1, r.2)
      else ([StorageOp.deleteBlob file_name], some EXIT_CODE_PYTHON_EXCEPTION)
    else ([], some EXIT_CODE_PYTHON_EXCEPTION)

/-- Embedding of the regex branch of `delete_file.py main` (lines 105-123):
on zero matches it prints and calls bare `sys.exit()`, which terminates the
process with status `0`; otherwise it deletes each matched blob in listing
order. -/
def delete_main_regex (env : AzureEnv) (p : String → Bool) :
    List StorageOp × Option Nat :=
  let matching := find_matching_files p env.listing
  if matching.length = 0 then ([], some 0)
  else delete_loop env matching

/-- Expected trace of a run of successful moves starting at a given 1-based
index (used to state the stop-on-first-failure property). -/
def movedOps (destination_folder_name : String) : Nat → List String → List StorageOp
  | _, [] => []
  | index, key_name :: rest =>
    let dest := moveDestinationFor destination_folder_name key_name index
    [StorageOp.startCopy key_name dest, StorageOp.getCopyStatus dest,
     StorageOp.deleteBlob key_name] ++ movedOps destination_folder_name (index + 1) rest

/-- Environment in which the storage client cannot be constructed. -/
def envNoClient : AzureEnv :=
  ⟨false, fun _ _ => "success", fun _ => true, []⟩

/-- Environment in which every copy reports success and every delete works. -/
def envCopyOk : AzureEnv :=
  ⟨true, fun _ _ => "success", fun _ => true, []⟩

/-- Environment whose container holds exactly one blob, `report.csv`. -/
def envSingle : AzureEnv :=
  ⟨true, fun _ _ => "success", fun _ => true, [⟨"report.csv"⟩]⟩

/-- Environment whose container holds only `summary.csv`. -/
def envNoMatch : AzureEnv :=
  ⟨true, fun _ _ => "success", fun _ => true, [⟨"summary.csv"⟩]⟩

/-- Environment in which copying the blob `b` reports status `pending` while
every other copy succeeds. -/
def envFailB : AzureEnv :=
  ⟨true, fun s _ => if s = "b" then "pending" else "success", fun _ => true, []⟩

/-- Environment in which deleting the blob `e` raises while every other
delete succeeds. -/
def envFailE : AzureEnv :=
  ⟨true, fun _ _ => "success", fun x => !(x == "e"), []⟩

example : normpath "" = "." := by decide
example : normpath "a//b/" = "a/b" := by decide
example : normpath "/../a" = "/a" := by decide
example : normpath "//a" = "//a" := by decide
example : normpath "///a" = "/a" := by decide
example : normpath "a/../.." = ".." := by decide
example : normpath "./a/./" = "a" := by decide
example : normpath "/.." = "/" := by decide
example : normpath "..//../x/.." = "../.." := by decide
example : normpath "a.b/../c" = "c" := by decide
example : clean_folder_name "//a//b//" = "a/b" := by decide
example : clean_folder_name "" = "" := by decide
example : combine_folder_and_file_name "archive" "out_1.csv" = "archive/out_1.csv" := by decide
example : enumerate_destination_file_name "out.csv" 1 = "out_1.csv" := by decide
example : enumerate_destination_file_name "a.b.c" 2 = "a_2.b.c" := by decide
example : enumerate_destination_file_name "noext" 3 = "noext_3" := by decide
example : extract_file_name_from_source_full_path "2023/report_a.csv" = "report_a.csv" := by decide
example : extract_file_name_from_source_full_path "a/" = "" := by decide
example : moveDestinationFor "f" "a/" 1 = "f" := by decide
example : moveDestinationFor "f" "b/" 2 = "f" := by decide
example : moveDestinationFor "" "report.csv" 1 = "report_1.csv" := by decide
example : upload_regex_destination "" (some "a.b/../c") "x" 1 = "c" := by decide
example : upload_regex_destination "" (some "a.b/../c") "y" 2 = "c" := by decide

/-! ### C7: the matcher is an order-preserving filter of the listing -/

theorem find_matching_files_eq_filter (p : String → Bool) (blobs : List Blob) :
    find_matching_files p blobs = (blobs.map Blob.name).filter p := by
  induction blobs with
  | nil => rfl
  | cons b rest ih =>
    by_cases h : p b.name
    · simp [find_matching_files, h, ih, List.filter]
    · simp [find_matching_files, h, ih, List.filter]

/-- C7: for every listing and every per-candidate match predicate (abstracting
`re.search` of the compiled pattern against the blob name, i.e. unanchored
containment of a match), `find_matching_files` returns exactly the names of
the listed blobs satisfying the predicate, in listing order (a sublist of the
listing), containing no name that was not listed. -/
theorem C7_matcher_is_listing_filter (p : String → Bool) (blobs : List Blob) :
    find_matching_files p blobs = (blobs.map Blob.name).filter p ∧
    (∀ s, s ∈ find_matching_files p blobs ↔ s ∈ blobs.map Blob.name ∧ p s = true) ∧
    (find_matching_files p blobs).Sublist (blobs.map Blob.name) := by
  refine ⟨find_matching_files_eq_filter p blobs, fun s => ?_, ?_⟩
  · rw [find_matching_files_eq_filter]
    exact List.mem_filter
  · rw [find_matching_files_eq_filter]
    exact List.filter_sublist _

/-! ### C8: credential failure is reported first and touches nothing -/

/-- C8: if the storage client cannot be constructed, `azure_move_blob` exits
with the distinct `INCORRECT_CREDENTIALS` code, issues no copy, status,
abort or delete call, and leaves every stored object untouched; the code is
distinct from the copy-verification failure code `MOVE_FAILED`. -/
theorem C8_credential_failure (env : AzureEnv) (src dst : String)
    (store : List String) (h : env.clientOk = false) :
    azure_move_blob env src dst = ([], some EXIT_CODE_INCORRECT_CREDENTIALS) ∧
    EXIT_CODE_INCORRECT_CREDENTIALS ≠ EXIT_CODE_AZURE_MOVE_ERROR ∧
    applyOps env store (azure_move_blob env src dst).1 = store := by
  refine ⟨?_, by decide, ?_⟩ <;> simp [azure_move_blob, h, applyOps]

/-- Witness for C8 at a concrete environment. -/
theorem C8_credential_failure_witness :
    envNoClient.clientOk = false ∧
    (azure_move_blob envNoClient "s" "d" = ([], some EXIT_CODE_INCORRECT_CREDENTIALS) ∧
     EXIT_CODE_INCORRECT_CREDENTIALS ≠ EXIT_CODE_AZURE_MOVE_ERROR ∧
     applyOps envNoClient ["s"] (azure_move_blob envNoClient "s" "d").1 = ["s"]) :=
  ⟨rfl, C8_credential_failure envNoClient "s" "d" ["s"] rfl⟩

/-! ### C10: the move flow never consults the supplied destination file name -/

/-- C10: the regex branch of the move flow is independent of the
user-supplied `--destination-file-name` value, and each per-member
destination is derived from the source object's basename with the ordinal
suffix applied. -/
theorem C10_destination_flag_ignored (env : AzureEnv) (p : String → Bool)
    (folder : String) (d d' : Option String) (key : String) (index : Nat)
    (h1 : extract_file_name_from_source_full_path key ≠ "") (h2 : index ≠ 0) :
    move_main_regex env p folder d = move_main_regex env p folder d' ∧
    moveDestinationFor folder key index =
      combine_folder_and_file_name folder
        (enumerate_destination_file_name
          (extract_file_name_from_source_full_path key) index) := by
  constructor
  · rfl
  · simp [moveDestinationFor, determine_destination_full_path,
      determine_destination_file_name, h1, h2]

/-- Witness for C10 at a concrete input. -/
theorem C10_destination_flag_ignored_witness :
    extract_file_name_from_source_full_path "d/report.csv" ≠ "" ∧ (1 : Nat) ≠ 0 ∧
    (move_main_regex envSingle (fun _ => true) "arch" (some "zz") =
       move_main_regex envSingle (fun _ => true) "arch" none ∧
     moveDestinationFor "arch" "d/report.csv" 1 =
       combine_folder_and_file_name "arch"
         (enumerate_destination_file_name
           (extract_file_name_from_source_full_path "d/report.csv") 1)) :=
  ⟨by decide, by decide,
   C10_destination_flag_ignored envSingle (fun _ => true) "arch" (some "zz") none
     "d/report.csv" 1 (by decide) (by decide)⟩

/-! ### C6: zero regex matches abort move/delete before any mutation -/

/-- Counterexample to C6 as stated: the delete flow with zero regex matches
terminates through bare `sys.exit()`, i.e. with process status `0` (success),
not with the distinct `NO_MATCHES_FOUND` failure code. -/
theorem C6_claim_counterexample :
    delete_main_regex envNoMatch (fun name => name == "report") = ([], some 0) ∧
    (0 : Nat) ≠ EXIT_CODE_NO_MATCHES_FOUND := by decide

/-- C6 (amended): with zero regex matches, the move flow exits with the
distinct `NO_MATCHES_FOUND` code and the delete flow exits with status `0`;
in both flows no copy, status, abort or delete call is issued, so no stored
object is mutated. -/
theorem C6_zero_matches (env : AzureEnv) (p : String → Bool) (folder : String)
    (d : Option String) (store : List String)
    (h : find_matching_files p env.listing = []) :
    move_main_regex env p folder d = ([], some EXIT_CODE_NO_MATCHES_FOUND) ∧
    delete_main_regex env p = ([], some 0) ∧
    EXIT_CODE_NO_MATCHES_FOUND ≠ 0 ∧
    applyOps env store [] = store := by
  refine ⟨?_, ?_, by decide, rfl⟩ <;> simp [move_main_regex, delete_main_regex, h]

/-- Witness for C6 at a concrete environment with no matching blob. -/
theorem C6_zero_matches_witness :
    find_matching_files (fun name => name == "report") envNoMatch.listing = [] ∧
    (move_main_regex envNoMatch (fun name => name == "report") "arch" none =
       ([], some EXIT_CODE_NO_MATCHES_FOUND) ∧
     delete_main_regex envNoMatch (fun name => name == "report") = ([], some 0) ∧
     EXIT_CODE_NO_MATCHES_FOUND ≠ 0 ∧
     applyOps envNoMatch ["summary.csv"] [] = ["summary.csv"]) :=
  ⟨by decide,
   C6_zero_matches envNoMatch (fun name => name == "report") "arch" none
     ["summary.csv"] (by decide)⟩

/-! ### C4: the ordinal suffix is inserted at the first dot, not the last -/

/-- Counterexample to C4 as stated: for the supplied name `a.b.c` with
ordinal `2` the code produces `a_2.b.c` (insertion before the first `.`),
not `a.b_2.c` (insertion before the last `.`). -/
theorem C4_claim_counterexample :
    enumerate_destination_file_name "a.b.c" 2 = "a_2.b.c" ∧
    ("a_2.b.c" : String) ≠ "a.b_2.c" := by decide

theorem subFirstDot_split (repl : List Char) (a b : List Char)
    (h : ('.' : Char) ∉ a) : subFirstDot repl (a ++ '.' :: b) = a ++ repl ++ b := by
  induction a with
  | nil => simp [subFirstDot]
  | cons c t ih =>
    have hc : c ≠ '.' := fun hcc => h (hcc ▸ List.mem_cons_self c t)
    have ht : ('.' : Char) ∉ t := fun hm => h (List.mem_cons_of_mem c hm)
    simp [subFirstDot, hc, ih ht]

/-- C4 (amended): with a supplied destination name and a nonzero ordinal,
the per-member name is produced by inserting `_<ordinal>` immediately before
the FIRST `.` of the supplied name; a name without `.` gets `_<ordinal>`
appended.  (`out.csv` therefore still yields `out_1.csv`, `out_2.csv`.) -/
theorem C4_first_dot_insertion (pre post s : String) (n : Nat)
    (h1 : ('.' : Char) ∉ pre.data) (h2 : ('.' : Char) ∉ s.data) :
    enumerate_destination_file_name (pre ++ "." ++ post) n =
      pre ++ "_" ++ Nat.repr n ++ "." ++ post ∧
    enumerate_destination_file_name s n = s ++ "_" ++ Nat.repr n := by
  constructor
  · have hdata : (pre ++ "." ++ post).data = pre.data ++ '.' :: post.data := by
      simp [String.data_append]
    have hmem : (pre ++ "." ++ post).data.contains '.' = true := by
      rw [hdata]; simp
    have : subFirstDot ('_' :: (Nat.repr n).data ++ ['.'])
        (pre.data ++ '.' :: post.data) =
        pre.data ++ ('_' :: (Nat.repr n).data ++ ['.']) ++ post.data :=
      subFirstDot_split _ _ _ h1
    simp only [enumerate_destination_file_name, hmem, if_true, hdata, this]
    apply String.ext
    simp [String.data_append]
  · simp [enumerate_destination_file_name, h2]

/-- Witness for C4 on the spec's own example `out.csv`. -/
theorem C4_first_dot_insertion_witness :
    ('.' : Char) ∉ ("out" : String).data ∧ ('.' : Char) ∉ ("noext" : String).data ∧
    (enumerate_destination_file_name ("out" ++ "." ++ "csv") 1 =
       "out" ++ "_" ++ Nat.repr 1 ++ "." ++ "csv" ∧
     enumerate_destination_file_name "noext" 1 = "noext" ++ "_" ++ Nat.repr 1) :=
  ⟨by decide, by decide, C4_first_dot_insertion "out" "csv" "noext" 1 (by decide) (by decide)⟩

/-! ### C5: suffix-free resolution holds only when no ordinal is passed -/

/-- Counterexample to C5 as stated: a regex move batch with exactly one
member still passes the ordinal `1`, so the single source `report.csv` is
relocated to `report_1.csv`, not to its unsuffixed name. -/
theorem C5_claim_counterexample :
    move_main_regex envSingle (fun _ => true) "" none =
      ([StorageOp.startCopy "report.csv" "report_1.csv",
        StorageOp.getCopyStatus "report_1.csv",
        StorageOp.deleteBlob "report.csv"], none) ∧
    ("report_1.csv" : String) ≠ "report.csv" := by decide

/-- C5 (amended): the resolver invoked without an ordinal never appends a
suffix — a supplied non-empty destination name is used verbatim and an
absent one falls back to the source basename — but the regex flows pass the
1-based ordinal even for a single-member batch, which therefore does get an
`_1` suffix (only the exact-match flow resolves without an ordinal). -/
theorem C5_no_ordinal_no_suffix (src d : String) (h : d ≠ "") :
    determine_destination_file_name src (some d) none = d ∧
    determine_destination_file_name src none none =
      extract_file_name_from_source_full_path src := by
  constructor
  · simp [determine_destination_file_name, h]
  · rfl

/-- Witness for C5 at a concrete input. -/
theorem C5_no_ordinal_no_suffix_witness :
    ("out.csv" : String) ≠ "" ∧
    (determine_destination_file_name "2023/report.csv" (some "out.csv") none = "out.csv" ∧
     determine_destination_file_name "2023/report.csv" none none =
       extract_file_name_from_source_full_path "2023/report.csv") :=
  ⟨by decide, C5_no_ordinal_no_suffix "2023/report.csv" "out.csv" (by decide)⟩

/-! ### C1: verified copy-then-delete semantics of a single move -/

/-- Counterexample to C1 as stated: when the computed destination equals the
source (reachable through the exact-match flow with identical source and
destination arguments), the move reports success but the destination object
does not exist afterwards — the copy-onto-itself is followed by the delete
of the same object, losing it. -/
theorem C1_claim_counterexample :
    (azure_move_blob envCopyOk "a" "a").2 = none ∧
    "a" ∉ applyOps envCopyOk ["a"] (azure_move_blob envCopyOk "a" "a").1 := by decide

/-- C1 (amended): for a move whose destination differs from its source —
if the move reports success, the destination object exists and the source
has been deleted; if the copy status read on the destination is anything
other than success, the in-progress copy is aborted (the partial destination
is removed), the source is not deleted, and the move exits with the
`MOVE_FAILED` code; and the source is never deleted unless the copy status
was confirmed to be success. -/
theorem C1_move_semantics (env : AzureEnv) (store : List String) (src dst : String)
    (hne : src ≠ dst) (hsrc : src ∈ store) :
    ((azure_move_blob env src dst).2 = none →
       dst ∈ applyOps env store (azure_move_blob env src dst).1 ∧
       src ∉ applyOps env store (azure_move_blob env src dst).1) ∧
    (env.clientOk = true → env.copyStatus src dst ≠ "success" →
       (azure_move_blob env src dst).2 = some EXIT_CODE_AZURE_MOVE_ERROR ∧
       StorageOp.abortCopy dst ∈ (azure_move_blob env src dst).1 ∧
       src ∈ applyOps env store (azure_move_blob env src dst).1 ∧
       dst ∉ applyOps env store (azure_move_blob env src dst).1 ∧
       StorageOp.deleteBlob src ∉ (azure_move_blob env src dst).1) ∧
    (StorageOp.deleteBlob src ∈ (azure_move_blob env src dst).1 →
       env.copyStatus src dst = "success") := by
  by_cases hc : env.clientOk
  · by_cases hs : env.copyStatus src dst = "success"
    · by_cases hd : env.deleteOk src
      · refine ⟨fun _ => ?_, fun _ habs => absurd hs habs, fun _ => hs⟩
        simp only [azure_move_blob, hc, hs, hd, if_true, ite_true, ne_eq,
          not_true_eq_false, if_false, ite_false]
        constructor
        · by_cases hmem : dst ∈ store <;>
            simp [applyOps, applyOp, hd, hmem, List.mem_filter, hne, Ne.symm hne]
        · by_cases hmem : dst ∈ store <;>
            simp [applyOps, applyOp, hd, hmem, List.mem_filter, hne]
      · refine ⟨?_, fun _ habs => absurd hs habs, fun _ => hs⟩
        simp [azure_move_blob, hc, hs, hd, EXIT_CODE_PYTHON_EXCEPTION]
    · refine ⟨?_, fun _ _ => ?_, fun hmem => ?_⟩
      · simp [azure_move_blob, hc, hs]
      · refine ⟨by simp [azure_move_blob, hc, hs], by simp [azure_move_blob, hc, hs],
          ?_, ?_, by simp [azure_move_blob, hc, hs]⟩
        · by_cases hmem : dst ∈ store <;>
            simp [azure_move_blob, hc, hs, applyOps, applyOp, hmem,
              List.mem_filter, hsrc, hne]
        · by_cases hmem : dst ∈ store <;>
            simp [azure_move_blob, hc, hs, applyOps, applyOp, hmem, List.mem_filter]
      · exfalso
        simp [azure_move_blob, hc, hs] at hmem
  · refine ⟨?_, fun habs => absurd habs (by simp [hc]), fun hmem => ?_⟩
    · simp [azure_move_blob, hc]
    · exfalso
      simp [azure_move_blob, hc] at hmem

/-- Witness for C1 at a concrete environment with a failing copy status. -/
theorem C1_move_semantics_witness :
    ("b" : String) ≠ "d" ∧ "b" ∈ (["b"] : List String) ∧
    (((azure_move_blob envFailB "b" "d").2 = none →
        "d" ∈ applyOps envFailB ["b"] (azure_move_blob envFailB "b" "d").1 ∧
        "b" ∉ applyOps envFailB ["b"] (azure_move_blob envFailB "b" "d").1) ∧
     (envFailB.clientOk = true → envFailB.copyStatus "b" "d" ≠ "success" →
        (azure_move_blob envFailB "b" "d").2 = some EXIT_CODE_AZURE_MOVE_ERROR ∧
        StorageOp.abortCopy "d" ∈ (azure_move_blob envFailB "b" "d").1 ∧
        "b" ∈ applyOps envFailB ["b"] (azure_move_blob envFailB "b" "d").1 ∧
        "d" ∉ applyOps envFailB ["b"] (azure_move_blob envFailB "b" "d").1 ∧
        StorageOp.deleteBlob "b" ∉ (azure_move_blob envFailB "b" "d").1) ∧
     (StorageOp.deleteBlob "b" ∈ (azure_move_blob envFailB "b" "d").1 →
        envFailB.copyStatus "b" "d" = "success")) :=
  ⟨by decide, by decide, C1_move_semantics envFailB ["b"] "b" "d" (by decide) (by decide)⟩

/-! ### C2: strict listing order and stop on first failure -/

theorem move_loop_success_run (env : AzureEnv) (folder : String) (hc : env.clientOk = true) :
    ∀ (l1 : List String) (start : Nat) (rest : List String),
    (∀ i (hi : i < l1.length),
        env.copyStatus l1[i] (moveDestinationFor folder l1[i] (start + i)) = "success" ∧
        env.deleteOk l1[i] = true) →
    move_loop env folder start (l1 ++ rest) =
      (movedOps folder start l1 ++ (move_loop env folder (start + l1.length) rest).1,
       (move_loop env folder (start + l1.length) rest).2) := by
  intro l1
  induction l1 with
  | nil => intro start rest _; simp [movedOps]
  | cons k t ih =>
    intro start rest h
    have h0 := h 0 (by simp)
    simp only [List.getElem_cons_zero, Nat.add_zero] at h0
    have hblob : azure_move_blob env k (moveDestinationFor folder k start) =
        ([StorageOp.startCopy k (moveDestinationFor folder k start),
          StorageOp.getCopyStatus (moveDestinationFor folder k start),
          StorageOp.deleteBlob k], none) := by
      simp [azure_move_blob, hc, h0.1, h0.2]
    have ht : ∀ i (hi : i < t.length),
        env.copyStatus t[i] (moveDestinationFor folder t[i] (start + 1 + i)) = "success" ∧
        env.deleteOk t[i] = true := by
      intro i hi
      have hh := h (i + 1) (by simpa using Nat.succ_lt_succ hi)
      simp only [List.getElem_cons_succ] at hh
      have e : start + (i + 1) = start + 1 + i := by omega
      rw [e] at hh
      exact hh
    calc move_loop env folder start ((k :: t) ++ rest)
      = ([StorageOp.startCopy k (moveDestinationFor folder k start),
          StorageOp.getCopyStatus (moveDestinationFor folder k start),
          StorageOp.deleteBlob k] ++ (move_loop env folder (start + 1) (t ++ rest)).1,
         (move_loop env folder (start + 1) (t ++ rest)).2) := by
          simp [move_loop, hblob]
      _ = (movedOps folder start (k :: t) ++
            (move_loop env folder (start + (k :: t).length) rest).1,
           (move_loop env folder (start + (k :: t).length) rest).2) := by
          rw [ih (start + 1) rest ht]
          have e : start + (k :: t).length = start + 1 + t.length := by
            simp [List.length_cons]
            omega
          rw [e]
          simp [movedOps, List.append_assoc]

theorem startCopy_mem_movedOps {x d0 : String} {folder : String} :
    ∀ {s : Nat} {l : List String},
    StorageOp.startCopy x d0 ∈ movedOps folder s l → x ∈ l := by
  intro s l
  induction l generalizing s with
  | nil => simp [movedOps]
  | cons k t ih =>
    intro h
    simp only [movedOps, List.cons_append, List.mem_cons] at h
    rcases h with h | h | h | h
    · cases h; exact List.mem_cons_self _ _
    · cases h
    · cases h
    · exact List.mem_cons_of_mem _ (ih h)

theorem deleteBlob_mem_movedOps {x : String} {folder : String} :
    ∀ {s : Nat} {l : List String},
    StorageOp.deleteBlob x ∈ movedOps folder s l → x ∈ l := by
  intro s l
  induction l generalizing s with
  | nil => simp [movedOps]
  | cons k t ih =>
    intro h
    simp only [movedOps, List.cons_append, List.mem_cons] at h
    rcases h with h | h | h | h
    · cases h
    · cases h
    · cases h; exact List.mem_cons_self _ _
    · exact List.mem_cons_of_mem _ (ih h)

theorem delete_loop_success_run (env : AzureEnv) (hc : env.clientOk = true) :
    ∀ (d1 : List String) (rest : List String), (∀ x ∈ d1, env.deleteOk x = true) →
    delete_loop env (d1 ++ rest) =
      (d1.map StorageOp.deleteBlob ++ (delete_loop env rest).1, (delete_loop env rest).2) := by
  intro d1
  induction d1 with
  | nil => intro rest _; simp
  | cons k t ih =>
    intro rest h
    have hk : env.deleteOk k = true := h k (List.mem_cons_self _ _)
    have ht : ∀ x ∈ t, env.deleteOk x = true := fun x hx => h x (List.mem_cons_of_mem _ hx)
    simp [delete_loop, hc, hk, ih rest ht]

/-- C2: in the move flow, matched objects are attempted strictly in listing
order; when the copy of the object `f` fails after the objects of `l1` have
each completed their full copy-verify-delete sequence, the loop exits with
the distinct move-failure code, the trace is exactly the completed sequences
of `l1` followed by `f`'s aborted attempt, and no copy or delete call is ever
issued for any later object.  The delete-only flow obeys the same
stop-on-first-failure discipline: a failing delete on `g` terminates the
batch after the deletes of `d1`, and no later object is touched. -/
theorem C2_stop_on_first_failure (env : AzureEnv) (folder : String)
    (l1 : List String) (f : String) (l2 : List String)
    (envD : AzureEnv) (d1 : List String) (g : String) (d2 : List String)
    (hc : env.clientOk = true)
    (hnd : (l1 ++ f :: l2).Nodup)
    (h1 : ∀ i (hi : i < l1.length),
        env.copyStatus l1[i] (moveDestinationFor folder l1[i] (1 + i)) = "success" ∧
        env.deleteOk l1[i] = true)
    (hf : env.copyStatus f (moveDestinationFor folder f (1 + l1.length)) ≠ "success")
    (hcD : envD.clientOk = true)
    (hndD : (d1 ++ g :: d2).Nodup)
    (hD1 : ∀ x ∈ d1, envD.deleteOk x = true)
    (hDg : envD.deleteOk g = false) :
    (move_loop env folder 1 (l1 ++ f :: l2) =
       (movedOps folder 1 l1 ++
          [StorageOp.startCopy f (moveDestinationFor folder f (1 + l1.length)),
           StorageOp.getCopyStatus (moveDestinationFor folder f (1 + l1.length)),
           StorageOp.abortCopy (moveDestinationFor folder f (1 + l1.length))],
        some EXIT_CODE_AZURE_MOVE_ERROR)) ∧
    (∀ x ∈ l2,
       (∀ dpath, StorageOp.startCopy x dpath ∉ (move_loop env folder 1 (l1 ++ f :: l2)).1) ∧
       StorageOp.deleteBlob x ∉ (move_loop env folder 1 (l1 ++ f :: l2)).1) ∧
    (delete_loop envD (d1 ++ g :: d2) =
       (d1.map StorageOp.deleteBlob ++ [StorageOp.deleteBlob g],
        some EXIT_CODE_PYTHON_EXCEPTION)) ∧
    (∀ x ∈ d2, StorageOp.deleteBlob x ∉ (delete_loop envD (d1 ++ g :: d2)).1) := by
  have hfail : move_loop env folder (1 + l1.length) (f :: l2) =
      ([StorageOp.startCopy f (moveDestinationFor folder f (1 + l1.length)),
        StorageOp.getCopyStatus (moveDestinationFor folder f (1 + l1.length)),
        StorageOp.abortCopy (moveDestinationFor folder f (1 + l1.length))],
       some EXIT_CODE_AZURE_MOVE_ERROR) := by
    simp [move_loop, azure_move_blob, hc, hf]
  have hmain : move_loop env folder 1 (l1 ++ f :: l2) =
      (movedOps folder 1 l1 ++
        [StorageOp.startCopy f (moveDestinationFor folder f (1 + l1.length)),
         StorageOp.getCopyStatus (moveDestinationFor folder f (1 + l1.length)),
         StorageOp.abortCopy (moveDestinationFor folder f (1 + l1.length))],
       some EXIT_CODE_AZURE_MOVE_ERROR) := by
    rw [move_loop_success_run env folder hc l1 1 (f :: l2) h1, hfail]
  have hdisj : ∀ x ∈ l2, x ∉ l1 ∧ x ≠ f := by
    intro x hx
    constructor
    · intro hx1
      exact (List.disjoint_of_nodup_append hnd) hx1 (List.mem_cons_of_mem _ hx)
    · intro hxf
      have hnd2 : (f :: l2).Nodup := hnd.of_append_right
      rw [List.nodup_cons] at hnd2
      exact hnd2.1 (hxf ▸ hx)
  have hdisjD : ∀ x ∈ d2, x ∉ d1 ∧ x ≠ g := by
    intro x hx
    constructor
    · intro hx1
      exact (List.disjoint_of_nodup_append hndD) hx1 (List.mem_cons_of_mem _ hx)
    · intro hxf
      have hnd2 : (g :: d2).Nodup := hndD.of_append_right
      rw [List.nodup_cons] at hnd2
      exact hnd2.1 (hxf ▸ hx)
  have hdel : delete_loop envD (d1 ++ g :: d2) =
      (d1.map StorageOp.deleteBlob ++ [StorageOp.deleteBlob g],
       some EXIT_CODE_PYTHON_EXCEPTION) := by
    rw [delete_loop_success_run envD hcD d1 (g :: d2) hD1]
    simp [delete_loop, hcD, hDg]
  refine ⟨hmain, fun x hx => ?_, hdel, fun x hx => ?_⟩
  · obtain ⟨hx1, hxf⟩ := hdisj x hx
    rw [hmain]
    constructor
    · intro dpath hmem
      rcases List.mem_append.1 hmem with hmem | hmem
      · exact hx1 (startCopy_mem_movedOps hmem)
      · rcases List.mem_cons.1 hmem with hmem | hmem
        · injection hmem with hh _
          exact hxf hh
        · rcases List.mem_cons.1 hmem with hmem | hmem
          · simp at hmem
          · rcases List.mem_cons.1 hmem with hmem | hmem
            · simp at hmem
            · simp at hmem
    · intro hmem
      rcases List.mem_append.1 hmem with hmem | hmem
      · exact hx1 (deleteBlob_mem_movedOps hmem)
      · rcases List.mem_cons.1 hmem with hmem | hmem
        · simp at hmem
        · rcases List.mem_cons.1 hmem with hmem | hmem
          · simp at hmem
          · rcases List.mem_cons.1 hmem with hmem | hmem
            · simp at hmem
            · simp at hmem
  · obtain ⟨hx1, hxg⟩ := hdisjD x hx
    rw [hdel]
    intro hmem
    rcases List.mem_append.1 hmem with hmem | hmem
    · rcases List.mem_map.1 hmem with ⟨y, hy, hyx⟩
      injection hyx with h
      exact hx1 (h ▸ hy)
    · rcases List.mem_cons.1 hmem with hmem | hmem
      · injection hmem with h
        exact hxg h
      · simp at hmem

/-- Witness for C2 with a three-object move batch failing on the second
object and a three-object delete batch failing on the second object. -/
theorem C2_stop_on_first_failure_witness :
    envFailB.clientOk = true ∧ (["a", "b", "c"] : List String).Nodup ∧
    (∀ i (hi : i < (["a"] : List String).length),
        envFailB.copyStatus (["a"] : List String)[i]
          (moveDestinationFor "out" (["a"] : List String)[i] (1 + i)) = "success" ∧
        envFailB.deleteOk (["a"] : List String)[i] = true) ∧
    envFailB.copyStatus "b" (moveDestinationFor "out" "b" (1 + 1)) ≠ "success" ∧
    envFailE.clientOk = true ∧ (["d", "e", "k"] : List String).Nodup ∧
    (∀ x ∈ (["d"] : List String), envFailE.deleteOk x = true) ∧
    envFailE.deleteOk "e" = false ∧
    ((move_loop envFailB "out" 1 (["a"] ++ "b" :: ["c"]) =
        (movedOps "out" 1 ["a"] ++
           [StorageOp.startCopy "b" (moveDestinationFor "out" "b" (1 + (["a"] : List String).length)),
            StorageOp.getCopyStatus (moveDestinationFor "out" "b" (1 + (["a"] : List String).length)),
            StorageOp.abortCopy (moveDestinationFor "out" "b" (1 + (["a"] : List String).length))],
         some EXIT_CODE_AZURE_MOVE_ERROR)) ∧
     (∀ x ∈ (["c"] : List String),
        (∀ dpath, StorageOp.startCopy x dpath ∉
           (move_loop envFailB "out" 1 (["a"] ++ "b" :: ["c"])).1) ∧
        StorageOp.deleteBlob x ∉ (move_loop envFailB "out" 1 (["a"] ++ "b" :: ["c"])).1) ∧
     (delete_loop envFailE (["d"] ++ "e" :: ["k"]) =
        ((["d"] : List String).map StorageOp.deleteBlob ++ [StorageOp.deleteBlob "e"],
         some EXIT_CODE_PYTHON_EXCEPTION)) ∧
     (∀ x ∈ (["k"] : List String),
        StorageOp.deleteBlob x ∉ (delete_loop envFailE (["d"] ++ "e" :: ["k"])).1)) :=
  ⟨rfl, by decide, by decide, by decide, rfl, by decide, by decide, by decide,
   C2_stop_on_first_failure envFailB "out" ["a"] "b" ["c"] envFailE ["d"] "e" ["k"]
     rfl (by decide) (by decide) (by decide) rfl (by decide) (by decide) (by decide)⟩

/-! ### Facts about the decimal representation `Nat.repr` -/

theorem toDigitsCore_eq_tdAux :
    ∀ (f n : Nat) (acc : List Char), n < f →
      Nat.toDigitsCore 10 f n acc = tdAux n ++ acc := by
  intro f
  induction f with
  | zero => intro n acc h; omega
  | succ f ih =>
    intro n acc h
    by_cases h10 : n / 10 = 0
    · have hn : n < 10 := by omega
      rw [tdAux]
      simp [Nat.toDigitsCore, h10, hn, Nat.mod_eq_of_lt hn]
    · have hn : ¬ n < 10 := by
        intro hlt
        exact h10 (Nat.div_eq_of_lt hlt)
      have hrec : n / 10 < f := by
        have := Nat.div_lt_self (by omega : 0 < n) (by omega : 1 < 10)
        omega
      rw [tdAux]
      simp only [Nat.toDigitsCore, h10, if_false, hn, dif_neg, dite_false]
      rw [ih (n / 10) (Nat.digitChar (n % 10) :: acc) hrec]
      simp

theorem repr_data (n : Nat) : (Nat.repr n).data = tdAux n := by
  show (Nat.toDigits 10 n).asString.data = tdAux n
  rw [Nat.toDigits, toDigitsCore_eq_tdAux (n + 1) n [] (by omega)]
  simp [List.asString]

theorem digitChar_mem_DIGITS : ∀ m, m < 10 → Nat.digitChar m ∈ DIGITS := by decide

theorem tdAux_mem_DIGITS (n : Nat) : ∀ c ∈ tdAux n, c ∈ DIGITS := by
  induction n using Nat.strong_induction_on with
  | _ n ih =>
    intro c hc
    rw [tdAux] at hc
    by_cases h : n < 10
    · rw [dif_pos h] at hc
      rcases List.mem_singleton.1 hc with rfl
      exact digitChar_mem_DIGITS n h
    · rw [dif_neg h] at hc
      rcases List.mem_append.1 hc with hc | hc
      · exact ih (n / 10) (Nat.div_lt_self (by omega) (by omega)) c hc
      · rcases List.mem_singleton.1 hc with rfl
        exact digitChar_mem_DIGITS _ (Nat.mod_lt _ (by omega))

theorem digitVal_digitChar : ∀ m, m < 10 → digitVal (Nat.digitChar m) = m := by decide

theorem digitsVal_append_singleton (l : List Char) (c : Char) :
    digitsVal (l ++ [c]) = 10 * digitsVal l + digitVal c := by
  simp [digitsVal, List.foldl_append]

theorem digitsVal_tdAux (n : Nat) : digitsVal (tdAux n) = n := by
  induction n using Nat.strong_induction_on with
  | _ n ih =>
    rw [tdAux]
    by_cases h : n < 10
    · rw [dif_pos h]
      simp [digitsVal, digitVal_digitChar n h]
    · rw [dif_neg h]
      rw [digitsVal_append_singleton,
        ih (n / 10) (Nat.div_lt_self (by omega) (by omega)),
        digitVal_digitChar _ (Nat.mod_lt _ (by omega))]
      omega

theorem tdAux_injective {m n : Nat} (h : tdAux m = tdAux n) : m = n := by
  have := digitsVal_tdAux m
  rw [h, digitsVal_tdAux] at this
  omega

theorem repr_injective {m n : Nat} (h : Nat.repr m = Nat.repr n) : m = n := by
  apply tdAux_injective
  rw [← repr_data, ← repr_data, h]

theorem repr_no_underscore (n : Nat) : ('_' : Char) ∉ (Nat.repr n).data := by
  intro h
  rw [repr_data] at h
  have := tdAux_mem_DIGITS n _ h
  simp [DIGITS] at this

theorem repr_no_dot (n : Nat) : ('.' : Char) ∉ (Nat.repr n).data := by
  intro h
  rw [repr_data] at h
  have := tdAux_mem_DIGITS n _ h
  simp [DIGITS] at this

theorem repr_no_slash (n : Nat) : ('/' : Char) ∉ (Nat.repr n).data := by
  intro h
  rw [repr_data] at h
  have := tdAux_mem_DIGITS n _ h
  simp [DIGITS] at this

/-! ### Structural lemmas about splitting and joining on slashes -/

theorem pySplit_ne_nil : ∀ l : List Char, pySplit l ≠ [] := by
  intro l
  induction l with
  | nil => simp [pySplit]
  | cons c t ih =>
    by_cases h : c = '/'
    · simp [pySplit, h]
    · simp only [pySplit, h, if_false, ite_false]
      cases hs : pySplit t with
      | nil => exact absurd hs ih
      | cons a b => simp [consHead]

theorem mem_pySplit_no_slash : ∀ (l : List Char) (c : List Char),
    c ∈ pySplit l → ('/' : Char) ∉ c := by
  intro l
  induction l with
  | nil =>
    intro c hc
    simp [pySplit] at hc
    simp [hc]
  | cons ch t ih =>
    intro c hc
    by_cases h : ch = '/'
    · rw [pySplit, if_pos h] at hc
      rcases List.mem_cons.1 hc with rfl | hc
      · simp
      · exact ih c hc
    · rw [pySplit, if_neg h] at hc
      cases hs : pySplit t with
      | nil => exact absurd hs (pySplit_ne_nil t)
      | cons a b =>
        rw [hs, consHead] at hc
        rcases List.mem_cons.1 hc with rfl | hc
        · intro hmem
          rcases List.mem_cons.1 hmem with he | hmem
          · exact h he.symm
          · exact ih a (hs ▸ List.mem_cons_self a b) hmem
        · exact ih c (hs ▸ List.mem_cons_of_mem a hc)

theorem consHead_append (c : Char) (l m : List (List Char)) (h : l ≠ []) :
    consHead c (l ++ m) = consHead c l ++ m := by
  cases l with
  | nil => exact absurd rfl h
  | cons a b => simp [consHead]

theorem pySplit_append_slash : ∀ a b : List Char,
    pySplit (a ++ '/' :: b) = pySplit a ++ pySplit b := by
  intro a b
  induction a with
  | nil => simp [pySplit]
  | cons c t ih =>
    by_cases h : c = '/'
    · simp [pySplit, h, ih]
    · have e1 : pySplit (c :: (t ++ '/' :: b)) = consHead c (pySplit (t ++ '/' :: b)) := by
        rw [pySplit, if_neg h]
      have e2 : pySplit (c :: t) = consHead c (pySplit t) := by
        rw [pySplit, if_neg h]
      rw [List.cons_append, e1, e2, ih,
        consHead_append c (pySplit t) (pySplit b) (pySplit_ne_nil t)]

theorem pySplit_no_slash : ∀ l : List Char, ('/' : Char) ∉ l → pySplit l = [l] := by
  intro l
  induction l with
  | nil => simp [pySplit]
  | cons c t ih =>
    intro h
    have hc : c ≠ '/' := fun he => h (he ▸ List.mem_cons_self c t)
    have ht : ('/' : Char) ∉ t := fun hm => h (List.mem_cons_of_mem c hm)
    rw [pySplit, if_neg hc, ih ht, consHead]

theorem pySplit_joinSlash : ∀ L : List (List Char), L ≠ [] →
    (∀ x ∈ L, ('/' : Char) ∉ x) → pySplit (joinSlash L) = L := by
  intro L
  induction L with
  | nil => intro h; exact absurd rfl h
  | cons x rest ih =>
    intro _ h
    cases rest with
    | nil => exact pySplit_no_slash x (h x (List.mem_cons_self x []))
    | cons y t =>
      rw [joinSlash, pySplit_append_slash,
        pySplit_no_slash x (h x (List.mem_cons_self _ _)),
        ih (by simp) (fun z hz => h z (List.mem_cons_of_mem x hz))]
      rfl

theorem joinSlash_ne_nil : ∀ L : List (List Char), L ≠ [] →
    (∀ x ∈ L, x ≠ []) → joinSlash L ≠ [] := by
  intro L
  cases L with
  | nil => intro h; exact absurd rfl h
  | cons x rest =>
    intro _ h
    cases rest with
    | nil => exact h x (List.mem_cons_self _ _)
    | cons y t =>
      rw [joinSlash]
      rcases h x (List.mem_cons_self _ _) with _
      cases x with
      | nil => exact absurd rfl (h [] (List.mem_cons_self _ _))
      | cons c t' => simp

theorem joinSlash_append_singleton : ∀ (L : List (List Char)) (n : List Char),
    L ≠ [] → joinSlash (L ++ [n]) = joinSlash L ++ '/' :: n := by
  intro L
  induction L with
  | nil => intro n h; exact absurd rfl h
  | cons x rest ih =>
    intro n _
    cases rest with
    | nil => simp [joinSlash]
    | cons y t =>
      show x ++ '/' :: joinSlash ((y :: t) ++ [n]) =
        (x ++ '/' :: joinSlash (y :: t)) ++ '/' :: n
      rw [ih n (by simp)]
      simp

/-! ### Invariant of the normpath component loop -/

theorem goodComp_dd : goodComp dd := by
  refine ⟨by simp [dd], by simp [dd], by simp [dd]⟩

theorem AccInv_nil (s : Nat) : AccInv s [] :=
  ⟨by simp, ⟨[], 0, by simp⟩, by simp⟩

theorem normStep_inv {s : Nat} {acc : List (List Char)} {comp : List Char}
    (hinv : AccInv s acc) (hcomp : ('/' : Char) ∉ comp) :
    AccInv s (normStep s acc comp) := by
  obtain ⟨hgood, ⟨m, k, hdec, hm⟩, habs⟩ := hinv
  by_cases h1 : comp = [] ∨ comp = ['.']
  · rw [normStep, if_pos h1]
    exact ⟨hgood, ⟨m, k, hdec, hm⟩, habs⟩
  · by_cases h2 : comp = dd
    · by_cases hcond : (s = 0 ∧ acc = []) ∨ acc.head? = some dd
      · rw [normStep, if_neg h1, if_pos h2, if_pos hcond]
        have hmnil : m = [] ∨ (s = 0 ∧ acc = []) := by
          rcases hcond with ⟨hs0, hnil⟩ | hhead
          · exact Or.inr ⟨hs0, hnil⟩
          · left
            cases m with
            | nil => rfl
            | cons c m' =>
              rw [hdec] at hhead
              simp at hhead
              exact absurd (hhead ▸ List.mem_cons_self c m') hm
        refine ⟨?_, ?_, ?_⟩
        · intro c hc
          rcases List.mem_cons.1 hc with rfl | hc
          · exact h2 ▸ goodComp_dd
          · exact hgood c hc
        · rcases hmnil with rfl | ⟨hs0, hnil⟩
          · refine ⟨[], k + 1, ?_, by simp⟩
            rw [hdec]
            simp [h2, List.replicate_succ]
          · refine ⟨[], 1, ?_, by simp⟩
            rw [hnil, h2]
            simp
        · intro hs hmem
          rcases List.mem_cons.1 hmem with he | hmem
          · rcases hcond with ⟨hs0, _⟩ | hhead
            · exact hs hs0
            · cases acc with
              | nil => simp at hhead
              | cons a as =>
                simp at hhead
                exact habs hs (hhead ▸ List.mem_cons_self a as)
          · exact habs hs hmem
      · by_cases hnil : acc = []
        · rw [normStep, if_neg h1, if_pos h2, if_neg hcond, if_pos hnil]
          exact ⟨hgood, ⟨m, k, hdec, hm⟩, habs⟩
        · rw [normStep, if_neg h1, if_pos h2, if_neg hcond, if_neg hnil]
          cases acc with
          | nil => exact absurd rfl hnil
          | cons a as =>
            have hadd : a ≠ dd := by
              intro he
              exact hcond (Or.inr (by simp [he]))
            have hmdec : ∃ m', m = a :: m' ∧ as = m' ++ List.replicate k dd := by
              cases m with
              | nil =>
                exfalso
                cases k with
                | zero => simp at hdec
                | succ k' =>
                  rw [List.nil_append, List.replicate_succ] at hdec
                  injection hdec with hab _
                  exact hadd hab
              | cons b m' =>
                rw [List.cons_append] at hdec
                injection hdec with hab has
                exact ⟨m', by rw [hab], has⟩
            obtain ⟨m', hma, hasdec⟩ := hmdec
            refine ⟨?_, ⟨m', k, by simpa using hasdec, ?_⟩, ?_⟩
            · intro c hc
              exact hgood c (List.mem_cons_of_mem a hc)
            · intro hmem
              exact hm (hma ▸ List.mem_cons_of_mem a hmem)
            · intro hs hmem
              exact habs hs (List.mem_cons_of_mem a hmem)
    · rw [normStep, if_neg h1, if_neg h2]
      push_neg at h1
      refine ⟨?_, ⟨comp :: m, k, by simp [hdec], ?_⟩, ?_⟩
      · intro c hc
        rcases List.mem_cons.1 hc with rfl | hc
        · exact ⟨h1.1, h1.2, hcomp⟩
        · exact hgood c hc
      · intro hmem
        rcases List.mem_cons.1 hmem with he | hmem
        · exact h2 he.symm
        · exact hm hmem
      · intro hs hmem
        rcases List.mem_cons.1 hmem with he | hmem
        · exact h2 he.symm
        · exact habs hs hmem

theorem foldl_normStep_inv {s : Nat} :
    ∀ (comps : List (List Char)) (acc : List (List Char)), AccInv s acc →
      (∀ c ∈ comps, ('/' : Char) ∉ c) →
      AccInv s (comps.foldl (normStep s) acc) := by
  intro comps
  induction comps with
  | nil => intro acc h _; exact h
  | cons c t ih =>
    intro acc h hcomps
    rw [List.foldl_cons]
    exact ih (normStep s acc c) (normStep_inv h (hcomps c (List.mem_cons_self _ _)))
      (fun x hx => hcomps x (List.mem_cons_of_mem c hx))

theorem AccInv_reverse_NormalOut {s : Nat} {acc : List (List Char)}
    (h : AccInv s acc) : NormalOut s acc.reverse := by
  obtain ⟨hgood, ⟨m, k, hdec, hm⟩, habs⟩ := h
  refine ⟨?_, ⟨k, m.reverse, ?_, ?_⟩, ?_⟩
  · intro c hc
    exact hgood c (List.mem_reverse.1 hc)
  · rw [hdec, List.reverse_append, List.reverse_replicate]
  · intro hmem
    exact hm (List.mem_reverse.1 hmem)
  · intro hs hmem
    exact habs hs (List.mem_reverse.1 hmem)

theorem foldl_normStep_replicate_dd (k j : Nat) :
    List.foldl (normStep 0) (List.replicate j dd) (List.replicate k dd) =
      List.replicate (j + k) dd := by
  induction k generalizing j with
  | zero => simp
  | succ k' ih =>
    rw [List.replicate_succ, List.foldl_cons]
    have hstep : normStep 0 (List.replicate j dd) dd = List.replicate (j + 1) dd := by
      have h1 : ¬ (dd = ([] : List Char) ∨ dd = ['.']) := by simp [dd]
      cases j with
      | zero =>
        rw [normStep, if_neg h1, if_pos rfl, if_pos (Or.inl ⟨rfl, by simp⟩)]
        simp
      | succ j' =>
        rw [normStep, if_neg h1, if_pos rfl, if_pos (Or.inr (by simp [List.replicate_succ]))]
        simp [List.replicate_succ]
    rw [hstep, ih (j + 1)]
    congr 1
    omega

theorem foldl_normStep_push (s : Nat) :
    ∀ (m : List (List Char)) (acc : List (List Char)),
      (∀ c ∈ m, goodComp c ∧ c ≠ dd) →
      List.foldl (normStep s) acc m = m.reverse ++ acc := by
  intro m
  induction m with
  | nil => intro acc _; simp
  | cons c t ih =>
    intro acc h
    obtain ⟨⟨hne, hnd, _⟩, hdd⟩ := h c (List.mem_cons_self _ _)
    have hstep : normStep s acc c = c :: acc := by
      rw [normStep, if_neg (by simp [hne, hnd]), if_neg hdd]
    rw [List.foldl_cons, hstep, ih (c :: acc) (fun x hx => h x (List.mem_cons_of_mem c hx))]
    simp

theorem foldl_normStep_normal {s : Nat} {L : List (List Char)}
    (h : NormalOut s L) : List.foldl (normStep s) [] L = L.reverse := by
  obtain ⟨hgood, ⟨k, m, hdec, hm⟩, habs⟩ := h
  have hpush : ∀ c ∈ m, goodComp c ∧ c ≠ dd := by
    intro c hc
    refine ⟨hgood c (hdec ▸ List.mem_append_right _ hc), ?_⟩
    intro he
    exact hm (he ▸ hc)
  by_cases hs : s = 0
  · subst hs
    have e : List.foldl (normStep 0) [] (List.replicate k dd) = List.replicate k dd := by
      simpa using foldl_normStep_replicate_dd k 0
    rw [hdec, List.foldl_append, e, foldl_normStep_push 0 m _ hpush]
    simp [List.reverse_append, List.reverse_replicate]
  · have hk : k = 0 := by
      cases k with
      | zero => rfl
      | succ k' =>
        exfalso
        exact habs hs (hdec ▸ List.mem_append_left _ (by simp [List.replicate_succ]))
    subst hk
    rw [hdec]
    simp only [List.replicate, List.nil_append]
    rw [foldl_normStep_push s m [] hpush]
    simp

/-! ### Idempotence of normpath -/

theorem initSlashes_le_two (p : List Char) : initSlashes p ≤ 2 := by
  rw [initSlashes]
  split_ifs <;> omega

theorem initSlashes_cons_ne {c : Char} (t : List Char) (h : c ≠ '/') :
    initSlashes (c :: t) = 0 := by
  simp [initSlashes, h]

theorem initSlashes_one_aux {c : Char} (t : List Char) (h : c ≠ '/') :
    initSlashes ('/' :: c :: t) = 1 := by
  simp [initSlashes, h]

theorem initSlashes_two_aux {c : Char} (t : List Char) (h : c ≠ '/') :
    initSlashes ('/' :: '/' :: c :: t) = 2 := by
  simp [initSlashes, h]

theorem normpath_spec (p : List Char) (hp : p ≠ []) :
    NormalOut (initSlashes p) (((pySplit p).foldl (normStep (initSlashes p)) []).reverse) ∧
    normpathChars p =
      joinOut (initSlashes p) (((pySplit p).foldl (normStep (initSlashes p)) []).reverse) := by
  constructor
  · exact AccInv_reverse_NormalOut
      (foldl_normStep_inv (pySplit p) [] (AccInv_nil _) (mem_pySplit_no_slash p))
  · rw [normpathChars, if_neg hp]

theorem head_joinSlash_good {L : List (List Char)} (hL : L ≠ [])
    (h : ∀ c ∈ L, goodComp c) :
    ∃ c t', joinSlash L = c :: t' ∧ c ≠ '/' := by
  cases L with
  | nil => exact absurd rfl hL
  | cons x rest =>
    obtain ⟨hne, _, hns⟩ := h x (List.mem_cons_self _ _)
    cases x with
    | nil => exact absurd rfl hne
    | cons c x' =>
      have hc : c ≠ '/' := fun he => hns (he ▸ List.mem_cons_self _ _)
      cases rest with
      | nil => exact ⟨c, x', rfl, hc⟩
      | cons y t => exact ⟨c, x' ++ '/' :: joinSlash (y :: t), rfl, hc⟩

theorem pySplit_replicate_slash : ∀ (s : Nat) (z : List Char),
    pySplit (List.replicate s '/' ++ z) = List.replicate s [] ++ pySplit z := by
  intro s
  induction s with
  | zero => intro z; simp
  | succ n ih =>
    intro z
    rw [List.replicate_succ, List.cons_append, pySplit, if_pos rfl, ih,
      List.replicate_succ, List.cons_append]

theorem foldl_normStep_nil_comps (s : Nat) :
    ∀ (n : Nat) (acc : List (List Char)),
      List.foldl (normStep s) acc (List.replicate n []) = acc := by
  intro n
  induction n with
  | zero => intro acc; simp
  | succ n' ih =>
    intro acc
    rw [List.replicate_succ, List.foldl_cons, normStep, if_pos (Or.inl rfl), ih]

theorem normpathChars_fix {s : Nat} {L : List (List Char)} (hs : s ≤ 2)
    (h : NormalOut s L) : normpathChars (joinOut s L) = joinOut s L := by
  by_cases hout : List.replicate s '/' ++ joinSlash L = []
  · rw [joinOut, if_pos hout]
    decide
  · rw [joinOut, if_neg hout]
    cases L with
    | nil =>
      simp only [joinSlash] at hout ⊢
      interval_cases s
      · simp at hout
      · decide
      · decide
    | cons x rest =>
      obtain ⟨c, t', hjoin, hc⟩ := head_joinSlash_good (by simp) h.1
      have hLne : (x :: rest : List (List Char)) ≠ [] := by simp
      have hslash : ∀ z ∈ x :: rest, ('/' : Char) ∉ z := fun z hz => (h.1 z hz).2.2
      have hslashes : initSlashes (List.replicate s '/' ++ joinSlash (x :: rest)) = s := by
        interval_cases s
        · rw [List.replicate, List.nil_append, hjoin]
          exact initSlashes_cons_ne t' hc
        · rw [hjoin]
          exact initSlashes_one_aux _ hc
        · rw [hjoin]
          exact initSlashes_two_aux _ hc
      have hne2 : List.replicate s '/' ++ joinSlash (x :: rest) ≠ [] := hout
      rw [normpathChars, if_neg hne2, hslashes, pySplit_replicate_slash,
        pySplit_joinSlash _ hLne hslash, List.foldl_append, foldl_normStep_nil_comps,
        foldl_normStep_normal h, List.reverse_reverse, joinOut, if_neg hout]

theorem normpathChars_idem (p : List Char) :
    normpathChars (normpathChars p) = normpathChars p := by
  by_cases hp : p = []
  · subst hp
    decide
  · obtain ⟨hnorm, heq⟩ := normpath_spec p hp
    rw [heq]
    exact normpathChars_fix (initSlashes_le_two p) hnorm

theorem normpath_idem (s : String) : normpath (normpath s) = normpath s := by
  show String.mk (normpathChars (String.mk (normpathChars s.data)).data) =
    String.mk (normpathChars s.data)
  rw [show (String.mk (normpathChars s.data)).data = normpathChars s.data from rfl,
    normpathChars_idem]

/-! ### Shape of cleaned folder names -/

theorem normpathChars_ne_nil (p : List Char) : normpathChars p ≠ [] := by
  rw [normpathChars]
  split_ifs with h
  · simp
  · rw [joinOut]
    split_ifs with h2
    · simp
    · exact h2

theorem normpathChars_rel_shape (p : List Char) (hp : p ≠ [])
    (h0 : initSlashes p = 0) :
    normpathChars p = ['.'] ∨
    ∃ L, L ≠ [] ∧ (∀ c ∈ L, goodComp c) ∧ normpathChars p = joinSlash L := by
  obtain ⟨hnorm, heq⟩ := normpath_spec p hp
  rw [h0] at hnorm heq
  cases hL : ((pySplit p).foldl (normStep 0) []).reverse with
  | nil =>
    left
    rw [heq, hL]
    decide
  | cons x rest =>
    right
    refine ⟨x :: rest, by simp, hL ▸ hnorm.1, ?_⟩
    rw [heq, hL, joinOut]
    rw [if_neg ?_]
    · simp
    · have : joinSlash (x :: rest) ≠ [] := by
        apply joinSlash_ne_nil _ (by simp)
        intro z hz
        exact ((hL ▸ hnorm.1) z hz).1
      simpa using this

theorem head?_dropWhile_slash (l : List Char) :
    (l.dropWhile (fun c => c = '/')).head? ≠ some '/' := by
  induction l with
  | nil => simp
  | cons c t ih =>
    by_cases h : c = '/'
    · rw [List.dropWhile_cons, if_pos (by simp [h])]
      exact ih
    · rw [List.dropWhile_cons, if_neg (by simp [h])]
      simpa using h

theorem head?_append_left {α : Type} (a b : List α) (h : a ≠ []) :
    (a ++ b).head? = a.head? := by
  cases a with
  | nil => exact absurd rfl h
  | cons x t => simp

theorem reverse_dropWhile_reverse_head? (t : List Char) (ht : t.head? ≠ some '/') :
    ((t.reverse.dropWhile (fun c => c = '/')).reverse).head? ≠ some '/' := by
  by_cases hyn : (t.reverse.dropWhile (fun c => c = '/')).reverse = []
  · rw [hyn]
    simp
  · have ht2 : (t.reverse.dropWhile (fun c => c = '/')).reverse ++
        (t.reverse.takeWhile (fun c => c = '/')).reverse = t := by
      have h := congrArg List.reverse
        (List.takeWhile_append_dropWhile (fun c => decide (c = '/')) t.reverse)
      rw [List.reverse_append, List.reverse_reverse] at h
      exact h
    have he : ((t.reverse.dropWhile (fun c => c = '/')).reverse).head? = t.head? := by
      conv_rhs => rw [← ht2]
      rw [head?_append_left _ _ hyn]
    rw [he]
    exact ht

theorem head?_pyStripSlash (l : List Char) : (pyStripSlash l).head? ≠ some '/' := by
  exact reverse_dropWhile_reverse_head? (l.dropWhile (fun c => c = '/'))
    (head?_dropWhile_slash l)

theorem getLast?_pyStripSlash (l : List Char) :
    (pyStripSlash l).getLast? ≠ some '/' := by
  rw [pyStripSlash]
  rw [List.getLast?_reverse]
  exact head?_dropWhile_slash _

theorem initSlashes_of_head_ne {l : List Char} (h : l.head? ≠ some '/') :
    initSlashes l = 0 := by
  rw [initSlashes, if_neg h]

theorem getLast?_mem_of_ne_nil {α : Type} {l : List α} (h : l ≠ []) :
    ∃ e, l.getLast? = some e ∧ e ∈ l := by
  refine ⟨l.getLast h, List.getLast?_eq_getLast l h, List.getLast_mem h⟩

theorem getLast?_joinSlash {L : List (List Char)} (hL : L ≠ [])
    (h : ∀ c ∈ L, goodComp c) : (joinSlash L).getLast? ≠ some '/' := by
  induction L with
  | nil => exact absurd rfl hL
  | cons x rest ih =>
    cases rest with
    | nil =>
      obtain ⟨hne, _, hns⟩ := h x (List.mem_cons_self _ _)
      obtain ⟨e, he, hmem⟩ := getLast?_mem_of_ne_nil hne
      show (joinSlash [x]).getLast? ≠ some '/'
      rw [joinSlash, he]
      intro hco
      exact hns ((Option.some.injEq _ _ ▸ hco) ▸ hmem)
    | cons y t =>
      have hrest : ∀ c ∈ y :: t, goodComp c := fun c hc => h c (List.mem_cons_of_mem x hc)
      have hjoin_ne : joinSlash (y :: t) ≠ [] :=
        joinSlash_ne_nil _ (by simp) (fun z hz => (hrest z hz).1)
      show (x ++ '/' :: joinSlash (y :: t)).getLast? ≠ some '/'
      rw [List.getLast?_append_cons,
        show ('/' :: joinSlash (y :: t) : List Char) = ['/'] ++ joinSlash (y :: t) from rfl,
        List.getLast?_append_of_ne_nil _ hjoin_ne]
      exact ih (by simp) hrest

theorem noDoubleSlash_append {x : List Char} (hx : ('/' : Char) ∉ x) :
    ∀ z, noDoubleSlash (x ++ z) = noDoubleSlash z := by
  induction x with
  | nil => intro z; rfl
  | cons c t ih =>
    intro z
    have hc : c ≠ '/' := fun he => hx (he ▸ List.mem_cons_self _ _)
    have ht : ('/' : Char) ∉ t := fun hm => hx (List.mem_cons_of_mem c hm)
    cases he : t ++ z with
    | nil =>
      have hz : z = [] := by
        cases t <;> simp_all
      have htn : t = [] := by
        cases t <;> simp_all
      subst hz; subst htn
      rfl
    | cons b rest =>
      show noDoubleSlash (c :: (t ++ z)) = noDoubleSlash z
      rw [he, noDoubleSlash, if_neg (by simp [hc]), ← he]
      exact ih ht z

theorem noDoubleSlash_joinSlash {L : List (List Char)} (hL : L ≠ [])
    (h : ∀ c ∈ L, goodComp c) : noDoubleSlash (joinSlash L) = true := by
  induction L with
  | nil => exact absurd rfl hL
  | cons x rest ih =>
    have hxs : ('/' : Char) ∉ x := (h x (List.mem_cons_self _ _)).2.2
    cases rest with
    | nil =>
      show noDoubleSlash (joinSlash [x]) = true
      rw [joinSlash, show (x : List Char) = x ++ [] by simp, noDoubleSlash_append hxs]
      rfl
    | cons y t =>
      have hrest : ∀ c ∈ y :: t, goodComp c := fun c hc => h c (List.mem_cons_of_mem x hc)
      obtain ⟨c', t'', hjoin, hc'⟩ := head_joinSlash_good (by simp) hrest
      show noDoubleSlash (x ++ '/' :: joinSlash (y :: t)) = true
      rw [noDoubleSlash_append hxs, hjoin, noDoubleSlash, if_neg (by simp [hc']),
        ← hjoin]
      exact ih (by simp) hrest

theorem normpathChars_rel_edges (p : List Char) (hp : p ≠ [])
    (h0 : initSlashes p = 0) :
    (normpathChars p).head? ≠ some '/' ∧
    (normpathChars p).getLast? ≠ some '/' ∧
    noDoubleSlash (normpathChars p) = true := by
  rcases normpathChars_rel_shape p hp h0 with heq | ⟨L, hLne, hgood, heq⟩
  · rw [heq]
    refine ⟨by decide, by decide, by decide⟩
  · rw [heq]
    obtain ⟨c, t', hjoin, hc⟩ := head_joinSlash_good hLne hgood
    refine ⟨?_, getLast?_joinSlash hLne hgood, noDoubleSlash_joinSlash hLne hgood⟩
    rw [hjoin]
    simpa using hc

theorem dropWhile_slash_noop {l : List Char} (h : l.head? ≠ some '/') :
    l.dropWhile (fun c => c = '/') = l := by
  cases l with
  | nil => rfl
  | cons c t =>
    have hc : ¬ (c = '/') := by simpa using h
    rw [List.dropWhile_cons, if_neg (by simp [hc])]

theorem pyStripSlash_noop {l : List Char} (hh : l.head? ≠ some '/')
    (hl : l.getLast? ≠ some '/') : pyStripSlash l = l := by
  rw [pyStripSlash, dropWhile_slash_noop hh,
    dropWhile_slash_noop (by rw [List.head?_reverse]; exact hl), List.reverse_reverse]

/-! ### C9: normalization is idempotent and composition-stable -/

theorem clean_shape (folder : String) :
    clean_folder_name folder = "" ∨
    ((clean_folder_name folder).data ≠ [] ∧
     (clean_folder_name folder).data.head? ≠ some '/' ∧
     (clean_folder_name folder).data.getLast? ≠ some '/' ∧
     noDoubleSlash (clean_folder_name folder).data = true ∧
     normpathChars (clean_folder_name folder).data = (clean_folder_name folder).data) := by
  have hdef : clean_folder_name folder =
      if String.mk (pyStripSlash folder.data) = "" then String.mk (pyStripSlash folder.data)
      else normpath (String.mk (pyStripSlash folder.data)) := rfl
  by_cases h : String.mk (pyStripSlash folder.data) = ""
  · left
    rw [hdef, if_pos h, h]
  · right
    have hpne : pyStripSlash folder.data ≠ [] := fun he => h (by rw [he])
    have hdata : (clean_folder_name folder).data =
        normpathChars (pyStripSlash folder.data) := by
      rw [hdef, if_neg h]
      rfl
    have h0 : initSlashes (pyStripSlash folder.data) = 0 :=
      initSlashes_of_head_ne (head?_pyStripSlash folder.data)
    obtain ⟨hh, hl, hnds⟩ := normpathChars_rel_edges _ hpne h0
    rw [hdata]
    exact ⟨normpathChars_ne_nil _, hh, hl, hnds, normpathChars_idem _⟩

theorem clean_folder_name_idem (folder : String) :
    clean_folder_name (clean_folder_name folder) = clean_folder_name folder := by
  rcases clean_shape folder with h | ⟨hne, hh, hl, _, hfix⟩
  · rw [h]
    decide
  · have hstrip : pyStripSlash (clean_folder_name folder).data =
        (clean_folder_name folder).data := pyStripSlash_noop hh hl
    have hdef : clean_folder_name (clean_folder_name folder) =
        if String.mk (pyStripSlash (clean_folder_name folder).data) = ""
        then String.mk (pyStripSlash (clean_folder_name folder).data)
        else normpath (String.mk (pyStripSlash (clean_folder_name folder).data)) := rfl
    rw [hdef, hstrip]
    have heta : String.mk (clean_folder_name folder).data = clean_folder_name folder := rfl
    rw [heta, if_neg (fun he => hne (congrArg String.data he))]
    show String.mk (normpathChars (clean_folder_name folder).data) = clean_folder_name folder
    rw [hfix]

/-- C9: path normalization is idempotent and composition-stable — cleaning
an already-cleaned folder name returns it unchanged; a cleaned folder name
has no leading separator, no trailing separator and no duplicated separator;
and combining a cleaned folder name with a file name yields a path that
re-normalizing leaves unchanged. -/
theorem C9_normalization_idempotent (folder file : String) :
    clean_folder_name (clean_folder_name folder) = clean_folder_name folder ∧
    (clean_folder_name folder).data.head? ≠ some '/' ∧
    (clean_folder_name folder).data.getLast? ≠ some '/' ∧
    noDoubleSlash (clean_folder_name folder).data = true ∧
    normpath (combine_folder_and_file_name (clean_folder_name folder) file) =
      combine_folder_and_file_name (clean_folder_name folder) file := by
  refine ⟨clean_folder_name_idem folder, ?_, ?_, ?_, ?_⟩
  · rcases clean_shape folder with h | ⟨_, hh, _⟩
    · rw [h]
      decide
    · exact hh
  · rcases clean_shape folder with h | ⟨_, _, hl, _⟩
    · rw [h]
      decide
    · exact hl
  · rcases clean_shape folder with h | ⟨_, _, _, hnds, _⟩
    · rw [h]
      decide
    · exact hnds
  · simp only [combine_folder_and_file_name]
    exact normpath_idem _

/-! ### C3: distinct ordinals give distinct destination paths -/

theorem append_cons_eq_append_cons {c : Char} :
    ∀ {a₁ a₂ r₁ r₂ : List Char}, c ∉ a₁ → c ∉ a₂ →
      a₁ ++ c :: r₁ = a₂ ++ c :: r₂ → a₁ = a₂ ∧ r₁ = r₂ := by
  intro a₁
  induction a₁ with
  | nil =>
    intro a₂ r₁ r₂ _ h2 he
    cases a₂ with
    | nil =>
      refine ⟨rfl, ?_⟩
      injection he
    | cons b t =>
      injection he with hb _
      exact absurd (hb ▸ List.mem_cons_self b t) h2
  | cons x t ih =>
    intro a₂ r₁ r₂ h1 h2 he
    cases a₂ with
    | nil =>
      injection he with hb _
      exact absurd (hb ▸ List.mem_cons_self x t) h1
    | cons y u =>
      injection he with hxy hrest
      have h1' : c ∉ t := fun hm => h1 (List.mem_cons_of_mem x hm)
      have h2' : c ∉ u := fun hm => h2 (List.mem_cons_of_mem y hm)
      obtain ⟨ht, hr⟩ := ih h1' h2' hrest
      exact ⟨by rw [hxy, ht], hr⟩

theorem first_occurrence {c : Char} :
    ∀ {l : List Char}, c ∈ l → ∃ a b, l = a ++ c :: b ∧ c ∉ a := by
  intro l
  induction l with
  | nil => simp
  | cons x t ih =>
    intro h
    by_cases hx : x = c
    · exact ⟨[], t, by simp [hx], by simp⟩
    · have hm : c ∈ t := by
        rcases List.mem_cons.1 h with he | hm
        · exact absurd he.symm hx
        · exact hm
      obtain ⟨a, b, hab, hna⟩ := ih hm
      refine ⟨x :: a, b, by rw [List.cons_append, hab], ?_⟩
      intro hmem
      rcases List.mem_cons.1 hmem with he | hmem
      · exact hx he.symm
      · exact hna hmem

theorem enumerate_data_no_dot {b : String} (h : ('.' : Char) ∉ b.data) (n : Nat) :
    (enumerate_destination_file_name b n).data =
      b.data ++ '_' :: (Nat.repr n).data := by
  rw [enumerate_destination_file_name, if_neg (by simpa using h)]
  simp [String.data_append]

theorem enumerate_data_dot {b : String} {pre post : List Char}
    (hdec : b.data = pre ++ '.' :: post) (hpre : ('.' : Char) ∉ pre) (n : Nat) :
    (enumerate_destination_file_name b n).data =
      (pre ++ '_' :: (Nat.repr n).data) ++ '.' :: post := by
  have hmem : ('.' : Char) ∈ b.data := by
    rw [hdec]
    exact List.mem_append_right _ (List.mem_cons_self _ _)
  rw [enumerate_destination_file_name, if_pos (by simpa using hmem)]
  show subFirstDot ('_' :: (Nat.repr n).data ++ ['.']) b.data =
    (pre ++ '_' :: (Nat.repr n).data) ++ '.' :: post
  rw [hdec, subFirstDot_split _ _ _ hpre]
  simp

theorem underscore_not_in_repr (n : Nat) : ('_' : Char) ∉ ((Nat.repr n).data).reverse := by
  intro h
  exact repr_no_underscore n (List.mem_reverse.1 h)

theorem repr_data_injective {i j : Nat} (h : (Nat.repr i).data = (Nat.repr j).data) :
    i = j := by
  apply tdAux_injective
  rw [← repr_data, ← repr_data, h]

theorem no_dot_block {b : String} (hb : ('.' : Char) ∉ b.data) (n : Nat) :
    ('.' : Char) ∉ b.data ++ '_' :: (Nat.repr n).data := by
  intro h
  rcases List.mem_append.1 h with h | h
  · exact hb h
  · rcases List.mem_cons.1 h with he | h
    · exact absurd he (by decide)
    · exact repr_no_dot n h

theorem rev_underscore_split {x y : List Char} {i j : Nat}
    (he : x ++ '_' :: (Nat.repr i).data = y ++ '_' :: (Nat.repr j).data) : i = j := by
  have hrev := congrArg List.reverse he
  rw [List.reverse_append, List.reverse_cons, List.reverse_append, List.reverse_cons] at hrev
  have h1 : (Nat.repr i).data.reverse ++ '_' :: x.reverse =
      (Nat.repr j).data.reverse ++ '_' :: y.reverse := by
    simpa using hrev
  obtain ⟨hd, _⟩ := append_cons_eq_append_cons (underscore_not_in_repr i)
    (underscore_not_in_repr j) h1
  exact repr_data_injective (by
    have := congrArg List.reverse hd
    simpa using this)

theorem enumerate_ordinal_injective (b₁ b₂ : String) {i j : Nat} (hij : i ≠ j) :
    enumerate_destination_file_name b₁ i ≠ enumerate_destination_file_name b₂ j := by
  intro he
  have hd := congrArg String.data he
  by_cases h1 : ('.' : Char) ∈ b₁.data <;> by_cases h2 : ('.' : Char) ∈ b₂.data
  · obtain ⟨p₁, q₁, hb₁, hp₁⟩ := first_occurrence h1
    obtain ⟨p₂, q₂, hb₂, hp₂⟩ := first_occurrence h2
    rw [enumerate_data_dot hb₁ hp₁ i, enumerate_data_dot hb₂ hp₂ j] at hd
    have hnd₁ : ('.' : Char) ∉ p₁ ++ '_' :: (Nat.repr i).data := by
      intro h
      rcases List.mem_append.1 h with h | h
      · exact hp₁ h
      · rcases List.mem_cons.1 h with hhe | h
        · exact absurd hhe (by decide)
        · exact repr_no_dot i h
    have hnd₂ : ('.' : Char) ∉ p₂ ++ '_' :: (Nat.repr j).data := by
      intro h
      rcases List.mem_append.1 h with h | h
      · exact hp₂ h
      · rcases List.mem_cons.1 h with hhe | h
        · exact absurd hhe (by decide)
        · exact repr_no_dot j h
    obtain ⟨hfront, _⟩ := append_cons_eq_append_cons hnd₁ hnd₂ hd
    exact hij (rev_underscore_split hfront)
  · obtain ⟨p₁, q₁, hb₁, hp₁⟩ := first_occurrence h1
    rw [enumerate_data_dot hb₁ hp₁ i, enumerate_data_no_dot h2 j] at hd
    have hdm : ('.' : Char) ∈ b₂.data ++ '_' :: (Nat.repr j).data := by
      rw [← hd]
      exact List.mem_append_right _ (List.mem_cons_self _ _)
    exact no_dot_block h2 j hdm
  · obtain ⟨p₂, q₂, hb₂, hp₂⟩ := first_occurrence h2
    rw [enumerate_data_no_dot h1 i, enumerate_data_dot hb₂ hp₂ j] at hd
    have hdm : ('.' : Char) ∈ b₁.data ++ '_' :: (Nat.repr i).data := by
      rw [hd]
      exact List.mem_append_right _ (List.mem_cons_self _ _)
    exact no_dot_block h1 i hdm
  · rw [enumerate_data_no_dot h1 i, enumerate_data_no_dot h2 j] at hd
    exact hij (rev_underscore_split hd)

theorem enumerate_no_slash {b : String} (hb : ('/' : Char) ∉ b.data) (n : Nat) :
    ('/' : Char) ∉ (enumerate_destination_file_name b n).data := by
  by_cases h : ('.' : Char) ∈ b.data
  · obtain ⟨pre, post, hdec, hpre⟩ := first_occurrence h
    rw [enumerate_data_dot hdec hpre n]
    intro hmem
    rcases List.mem_append.1 hmem with hmem | hmem
    · rcases List.mem_append.1 hmem with hmem | hmem
      · exact hb (hdec ▸ List.mem_append_left _ hmem)
      · rcases List.mem_cons.1 hmem with he | hmem
        · exact absurd he (by decide)
        · exact repr_no_slash n hmem
    · rcases List.mem_cons.1 hmem with he | hmem
      · exact absurd he (by decide)
      · exact hb (hdec ▸ List.mem_append_right _ (List.mem_cons_of_mem _ hmem))
  · rw [enumerate_data_no_dot h n]
    intro hmem
    rcases List.mem_append.1 hmem with hmem | hmem
    · exact hb hmem
    · rcases List.mem_cons.1 hmem with he | hmem
      · exact absurd he (by decide)
      · exact repr_no_slash n hmem

theorem enumerate_has_underscore (b : String) (n : Nat) :
    ('_' : Char) ∈ (enumerate_destination_file_name b n).data := by
  by_cases h : ('.' : Char) ∈ b.data
  · obtain ⟨pre, post, hdec, hpre⟩ := first_occurrence h
    rw [enumerate_data_dot hdec hpre n]
    exact List.mem_append_left _ (List.mem_append_right _ (List.mem_cons_self _ _))
  · rw [enumerate_data_no_dot h n]
    exact List.mem_append_right _ (List.mem_cons_self _ _)

theorem enumerate_goodComp {b : String} (hb : ('/' : Char) ∉ b.data) (n : Nat) :
    goodComp (enumerate_destination_file_name b n).data ∧
    (enumerate_destination_file_name b n).data ≠ dd := by
  have hu := enumerate_has_underscore b n
  refine ⟨⟨?_, ?_, enumerate_no_slash hb n⟩, ?_⟩
  · intro he
    rw [he] at hu
    exact absurd hu (List.not_mem_nil _)
  · intro he
    rw [he] at hu
    rcases List.mem_cons.1 hu with hc | hc
    · exact absurd hc (by decide)
    · exact absurd hc (List.not_mem_nil _)
  · intro he
    rw [he] at hu
    rw [dd] at hu
    rcases List.mem_cons.1 hu with hc | hc
    · exact absurd hc (by decide)
    · rcases List.mem_cons.1 hc with hc | hc
      · exact absurd hc (by decide)
      · exact absurd hc (List.not_mem_nil _)

theorem basenameChars_no_slash (p : List Char) : ('/' : Char) ∉ basenameChars p := by
  intro h
  rw [basenameChars] at h
  have h2 := List.mem_reverse.1 h
  have := List.mem_takeWhile_imp h2
  simp at this

theorem takeWhile_ne_slash_all : ∀ (l : List Char), (∀ c ∈ l, c ≠ '/') →
    l.takeWhile (fun c => c ≠ '/') = l := by
  intro l
  induction l with
  | nil => intro _; rfl
  | cons c t ih =>
    intro h
    rw [List.takeWhile_cons, if_pos (by simpa using h c (List.mem_cons_self _ _))]
    rw [ih (fun x hx => h x (List.mem_cons_of_mem c hx))]

theorem takeWhile_ne_slash_append (l : List Char) (hl : ∀ c ∈ l, c ≠ '/') :
    ∀ r : List Char, ((l ++ '/' :: r).takeWhile (fun c => c ≠ '/')) = l := by
  intro r
  induction l with
  | nil =>
    rw [List.nil_append, List.takeWhile_cons, if_neg (by simp)]
  | cons c t ih =>
    rw [List.cons_append, List.takeWhile_cons,
      if_pos (by simpa using hl c (List.mem_cons_self _ _))]
    rw [ih]
    intro x hx
    exact hl x (List.mem_cons_of_mem c hx)

theorem basenameChars_id {n : List Char} (h : ('/' : Char) ∉ n) :
    basenameChars n = n := by
  rw [basenameChars, takeWhile_ne_slash_all n.reverse
    (fun c hc he => h (he ▸ List.mem_reverse.1 hc)), List.reverse_reverse]

theorem basenameChars_append_slash {n : List Char} (h : ('/' : Char) ∉ n)
    (x : List Char) : basenameChars (x ++ '/' :: n) = n := by
  rw [basenameChars, List.reverse_append, List.reverse_cons]
  rw [show n.reverse ++ ['/'] ++ x.reverse = n.reverse ++ '/' :: x.reverse by simp]
  rw [takeWhile_ne_slash_append n.reverse
    (fun c hc he => h (he ▸ List.mem_reverse.1 hc)), List.reverse_reverse]

theorem normpathChars_single_comp {n : List Char} (hg : goodComp n) (hdd : n ≠ dd) :
    normpathChars n = n := by
  obtain ⟨hne, hnd, hns⟩ := hg
  have hhead : n.head? ≠ some '/' := by
    cases n with
    | nil => exact absurd rfl hne
    | cons c t =>
      intro h
      exact hns ((Option.some.injEq _ _ ▸ h) ▸ List.mem_cons_self c t)
  have hstep : normStep 0 [] n = [n] := by
    rw [normStep, if_neg (by simp [hne, hnd]), if_neg hdd]
  rw [normpathChars, if_neg hne, initSlashes_of_head_ne hhead, pySplit_no_slash n hns]
  rw [show List.foldl (normStep 0) [] [n] = normStep 0 [] n from rfl, hstep]
  rw [joinOut]
  rw [if_neg (by simp [joinSlash, hne])]
  simp [joinSlash]

theorem normpathChars_append_basename {n : List Char} (hg : goodComp n)
    (hdd : n ≠ dd) (p : List Char) :
    basenameChars (normpathChars (p ++ '/' :: n)) = n := by
  obtain ⟨hne, hnd, hns⟩ := hg
  have hqne : p ++ '/' :: n ≠ [] := by simp
  have hsplit : pySplit (p ++ '/' :: n) = pySplit p ++ [n] := by
    rw [pySplit_append_slash, pySplit_no_slash n hns]
  have hstep : ∀ A : List (List Char), normStep (initSlashes (p ++ '/' :: n)) A n = n :: A := by
    intro A
    rw [normStep, if_neg (by simp [hne, hnd]), if_neg hdd]
  rw [normpathChars, if_neg hqne, hsplit, List.foldl_append]
  rw [show ∀ A : List (List Char),
      List.foldl (normStep (initSlashes (p ++ '/' :: n))) A [n] =
        normStep (initSlashes (p ++ '/' :: n)) A n from fun A => rfl]
  rw [hstep, List.reverse_cons]
  cases hA : (List.foldl (normStep (initSlashes (p ++ '/' :: n))) []
      (pySplit p)).reverse with
  | nil =>
    rw [joinOut, List.nil_append]
    rw [if_neg (by simp [joinSlash, hne])]
    cases hs : initSlashes (p ++ '/' :: n) with
    | zero =>
      simp only [List.replicate, List.nil_append, joinSlash]
      exact basenameChars_id hns
    | succ k =>
      rw [show joinSlash [n] = n from rfl, List.replicate_succ']
      rw [show List.replicate k '/' ++ ['/'] ++ n = List.replicate k '/' ++ '/' :: n by simp]
      exact basenameChars_append_slash hns _
  | cons x xs =>
    rw [joinOut, joinSlash_append_singleton (x :: xs) n (by simp)]
    rw [if_neg (by simp)]
    rw [show List.replicate (initSlashes (p ++ '/' :: n)) '/' ++
        (joinSlash (x :: xs) ++ '/' :: n) =
        (List.replicate (initSlashes (p ++ '/' :: n)) '/' ++ joinSlash (x :: xs)) ++
          '/' :: n by simp]
    exact basenameChars_append_slash hns _

theorem combine_basename {n : List Char} (hg : goodComp n) (hdd : n ≠ dd)
    (folder : String) :
    basenameChars (combine_folder_and_file_name folder (String.mk n)).data = n := by
  have hdata : (combine_folder_and_file_name folder (String.mk n)).data =
      normpathChars (normpathChars
        ((folder ++ (if folder = "" then "" else "/") ++ String.mk n).data)) := rfl
  rw [hdata, normpathChars_idem]
  by_cases hf : folder = ""
  · have hraw : (folder ++ (if folder = "" then "" else "/") ++ String.mk n).data = n := by
      subst hf
      simp [String.data_append]
    rw [hraw, normpathChars_single_comp hg hdd]
    exact basenameChars_id hg.2.2
  · have hraw : (folder ++ (if folder = "" then "" else "/") ++ String.mk n).data =
        folder.data ++ '/' :: n := by
      rw [if_neg hf]
      simp [String.data_append]
    rw [hraw]
    exact normpathChars_append_basename hg hdd folder.data

theorem combine_inj_file {folder : String} {n₁ n₂ : List Char}
    (h₁ : goodComp n₁) (hd₁ : n₁ ≠ dd) (h₂ : goodComp n₂) (hd₂ : n₂ ≠ dd)
    (he : combine_folder_and_file_name folder (String.mk n₁) =
      combine_folder_and_file_name folder (String.mk n₂)) : n₁ = n₂ := by
  have hbn := congrArg (fun s : String => basenameChars s.data) he
  simp only [combine_basename h₁ hd₁ folder, combine_basename h₂ hd₂ folder] at hbn
  exact hbn

theorem moveDestinationFor_eq (folder key : String) (i : Nat)
    (hb : extract_file_name_from_source_full_path key ≠ "") (hi : i ≠ 0) :
    moveDestinationFor folder key i =
      combine_folder_and_file_name folder
        (enumerate_destination_file_name
          (extract_file_name_from_source_full_path key) i) := by
  simp [moveDestinationFor, determine_destination_full_path,
    determine_destination_file_name, hb, hi]

theorem upload_destination_eq (folder d key : String) (i : Nat)
    (hd : d ≠ "") (hi : i ≠ 0) :
    upload_regex_destination folder (some d) key i =
      combine_folder_and_file_name folder (enumerate_destination_file_name d i) := by
  simp [upload_regex_destination, determine_destination_full_path,
    determine_destination_file_name, hd, hi]

/-- Counterexample to C3 as stated: two sources whose basenames are empty
(paths ending in `'/'`) resolve to the SAME destination under distinct
ordinals 1 and 2 in the move flow, and a supplied destination file name
containing a path separator (`a.b/../c`) collapses under normalization to
the same destination for ordinals 1 and 2 in the upload/download flow. -/
theorem C3_claim_counterexample :
    moveDestinationFor "f" "a/" 1 = moveDestinationFor "f" "b/" 2 ∧
    upload_regex_destination "" (some "a.b/../c") "x" 1 =
      upload_regex_destination "" (some "a.b/../c") "y" 2 ∧
    (1 : Nat) ≠ 2 := by decide

/-- C3 (amended): for every batch, distinct nonzero ordinals give pairwise
distinct destination paths, provided each matched source has a non-empty
basename (when no destination file name is supplied — the move flow) and the
supplied destination file name is non-empty and free of path separators
(the upload/download flow); the disambiguation is purely positional, so two
sources sharing a basename are still separated. -/
theorem C3_distinct_ordinals_distinct_destinations
    (folder k₁ k₂ d : String) (i j : Nat)
    (hij : i ≠ j) (hi : i ≠ 0) (hj : j ≠ 0)
    (hb₁ : extract_file_name_from_source_full_path k₁ ≠ "")
    (hb₂ : extract_file_name_from_source_full_path k₂ ≠ "")
    (hd : d ≠ "") (hds : ('/' : Char) ∉ d.data) :
    moveDestinationFor folder k₁ i ≠ moveDestinationFor folder k₂ j ∧
    upload_regex_destination folder (some d) k₁ i ≠
      upload_regex_destination folder (some d) k₂ j := by
  constructor
  · rw [moveDestinationFor_eq folder k₁ i hb₁ hi, moveDestinationFor_eq folder k₂ j hb₂ hj]
    intro he
    have hs₁ : ('/' : Char) ∉ (extract_file_name_from_source_full_path k₁).data :=
      basenameChars_no_slash _
    have hs₂ : ('/' : Char) ∉ (extract_file_name_from_source_full_path k₂).data :=
      basenameChars_no_slash _
    obtain ⟨hg₁, hdd₁⟩ := enumerate_goodComp hs₁ i
    obtain ⟨hg₂, hdd₂⟩ := enumerate_goodComp hs₂ j
    have hn := combine_inj_file hg₁ hdd₁ hg₂ hdd₂ he
    exact enumerate_ordinal_injective _ _ hij (String.ext hn)
  · rw [upload_destination_eq folder d k₁ i hd hi, upload_destination_eq folder d k₂ j hd hj]
    intro he
    obtain ⟨hg₁, hdd₁⟩ := enumerate_goodComp hds i
    obtain ⟨hg₂, hdd₂⟩ := enumerate_goodComp hds j
    have hn := combine_inj_file hg₁ hdd₁ hg₂ hdd₂ he
    exact enumerate_ordinal_injective _ _ hij (String.ext hn)

/-- Witness for C3 at concrete inputs: two sources sharing the basename
`report.csv` with ordinals 1 and 2, and the supplied name `out.csv`. -/
theorem C3_distinct_ordinals_distinct_destinations_witness :
    (1 : Nat) ≠ 2 ∧ (1 : Nat) ≠ 0 ∧ (2 : Nat) ≠ 0 ∧
    extract_file_name_from_source_full_path "a/report.csv" ≠ "" ∧
    extract_file_name_from_source_full_path "b/report.csv" ≠ "" ∧
    ("out.csv" : String) ≠ "" ∧ ('/' : Char) ∉ ("out.csv" : String).data ∧
    (moveDestinationFor "archive" "a/report.csv" 1 ≠
       moveDestinationFor "archive" "b/report.csv" 2 ∧
     upload_regex_destination "archive" (some "out.csv") "a/report.csv" 1 ≠
       upload_regex_destination "archive" (some "out.csv") "b/report.csv" 2) :=
  ⟨by decide, by decide, by decide, by decide, by decide, by decide, by decide,
   C3_distinct_ordinals_distinct_destinations "archive" "a/report.csv" "b/report.csv"
     "out.csv" 1 2 (by decide) (by decide) (by decide) (by decide) (by decide)
     (by decide) (by decide)⟩
